import Mathlib

/-!
Verification development for the `heapcmd.py` heap-profiling script
(gdbplus/python/heapcmd.py of core_analyzer).

The script runs inside gdb.  We shallowly embed the gdb introspection
surface it consumes (types, values, the heap-block oracle, thread/frame
enumeration) as explicit data plus a record of host functions, and we
transcribe the script's own logic — `heap_usage_value`, the dedup loop of
`PrintTopVariableCommand.calc_all_vars`, `calc_input_vars` — directly from
the source.  Machine integers are modelled as `Nat` (the script only adds
sizes and compares addresses; no overflow is relevant).  Host calls that
can raise in Python are modelled with `Option`/`Except` results; a few
host-error paths that can only occur for pathological hosts (noted inline)
are modelled as benign skips.
-/

namespace CoreAnalyzer

/-- A heap allocator block as returned by the `gdb.heap_block` oracle:
base address (`blk.address`), byte size (`blk.size`) and in-use flag
(`blk.inuse`).  Two blocks are the same iff their base addresses are equal. -/
structure HeapBlock where
  address : Nat
  size : Nat
  inuse : Bool
deriving DecidableEq, Repr

mutual

/-- Embedding of the gdb type shapes `heap_usage_value` branches on:
`TYPE_CODE_PTR`, `TYPE_CODE_REF`, `TYPE_CODE_TYPEDEF`, `TYPE_CODE_ARRAY`,
`TYPE_CODE_STRUCT`, `TYPE_CODE_UNION`; every other type code (enum, int,
float, func, void, ...) is `prim`, which the script never expands and whose
code is none of the ones the member filter accepts.  Each constructor also
carries the type's `sizeof`. -/
inductive GdbType : Type where
  | ptr (target : GdbType) (sizeof : Nat)
  | ref (target : GdbType) (sizeof : Nat)
  | typedef (target : GdbType) (sizeof : Nat)
  | arr (target : GdbType) (sizeof : Nat)
  | strct (fields : List GdbField) (sizeof : Nat)
  | union (fields : List GdbField) (sizeof : Nat)
  | prim (sizeof : Nat)

/-- A gdb `Field` of a struct/union type: name (`m.name`, possibly absent),
`m.is_base_class`, whether the Python `hasattr(m, "type")` check succeeds,
and the field's type `m.type`. -/
inductive GdbField : Type where
  | mk (fname : Option String) (isBaseClass : Bool) (hasTypeAttr : Bool) (ftype : GdbType)

end

def GdbField.fname : GdbField → Option String
  | .mk n _ _ _ => n

def GdbField.isBaseClass : GdbField → Bool
  | .mk _ b _ _ => b

def GdbField.hasTypeAttr : GdbField → Bool
  | .mk _ _ h _ => h

def GdbField.ftype : GdbField → GdbType
  | .mk _ _ _ t => t

/-- The `sizeof` attribute of a gdb type. -/
def sizeOfTy : GdbType → Nat
  | .ptr _ s => s
  | .ref _ s => s
  | .typedef _ s => s
  | .arr _ s => s
  | .strct _ s => s
  | .union _ s => s
  | .prim s => s

/-- Model of `gdb.types.get_basic_type`: strip typedef and reference
wrappers, exposing the underlying structural kind (the script calls it on
`value.type` before branching on the type code). -/
def getBasicType : GdbType → GdbType
  | .typedef t _ => getBasicType t
  | .ref t _ => getBasicType t
  | .ptr t s => .ptr t s
  | .arr t s => .arr t s
  | .strct fs s => .strct fs s
  | .union fs s => .union fs s
  | .prim s => .prim s

/-- The member-kind filter of lines 230-236 of heapcmd.py: a struct member
is only continued into when its (unstripped) type code is one of PTR, REF,
ARRAY, STRUCT, UNION, TYPEDEF. -/
def allowedFieldCode : GdbType → Bool
  | .ptr _ _ => true
  | .ref _ _ => true
  | .arr _ _ => true
  | .strct _ _ => true
  | .union _ _ => true
  | .typedef _ _ => true
  | .prim _ => false

/-- Model of gdb `Type.target()`: defined for pointer, reference, array and
typedef types; `none` models the gdb error raised on other type codes. -/
def targetOf : GdbType → Option GdbType
  | .ptr t _ => some t
  | .ref t _ => some t
  | .arr t _ => some t
  | .typedef t _ => some t
  | .strct _ _ => none
  | .union _ _ => none
  | .prim _ => none

mutual

/-- Structural equality test on gdb types, modelling the `type is not
value.dynamic_type` identity comparison of line 183 (gdb caches type
objects, so identity coincides with structural equality of the embedding). -/
def tyBeq : GdbType → GdbType → Bool
  | .ptr t s, .ptr t' s' => tyBeq t t' && s == s'
  | .ref t s, .ref t' s' => tyBeq t t' && s == s'
  | .typedef t s, .typedef t' s' => tyBeq t t' && s == s'
  | .arr t s, .arr t' s' => tyBeq t t' && s == s'
  | .strct fs s, .strct fs' s' => fieldsBeq fs fs' && s == s'
  | .union fs s, .union fs' s' => fieldsBeq fs fs' && s == s'
  | .prim s, .prim s' => s == s'
  | _, _ => false

def fieldsBeq : List GdbField → List GdbField → Bool
  | [], [] => true
  | f :: fs, f' :: fs' => fieldBeq f f' && fieldsBeq fs fs'
  | _, _ => false

def fieldBeq : GdbField → GdbField → Bool
  | .mk n b h t, .mk n' b' h' t' => n == n' && b == b' && h == h' && tyBeq t t'

end

/-- A gdb value as the script observes it: its static type, its address
(`value.address`, absent for register-resident values) and the
`is_optimized_out` flag.  Contents are read through the host functions. -/
structure Value where
  vtype : GdbType
  address : Option Nat
  optimizedOut : Bool

/-- The gdb host surface consumed by `heap_usage_value`.  `heap` is the
allocator's (finite) block bookkeeping backing the `gdb.heap_block` oracle;
the remaining functions model value navigation: `value.dynamic_type`,
`value.cast`, `long(value)` for a pointer, `value.referenced_value()`,
`value[i]`, Python `hasattr(value, name)`, and `value[name]` (with `none`
for an inaccessible member). -/
structure Host where
  heap : List HeapBlock
  heapBlock : Nat → Option HeapBlock
  dynamicType : Value → GdbType
  castV : Value → GdbType → Value
  ptrLong : Value → Nat
  refValue : Value → Value
  elemAt : Value → Nat → Value
  hasattrV : Value → String → Bool
  fieldByName : Value → String → Option Value

/-- State of the worklist DFS of `heap_usage_value`: the `values` deque
(head of the list = top of stack), the per-call `unique_value_addrs` set,
the caller-supplied `blk_addrs` set, the running `size` and `count`
accumulators, plus two ghost logs used only in theorems: `counted` records
every block whose size/count was added (newest first), `expanded` records
every address added to `unique_value_addrs` (newest first). -/
structure TravState where
  worklist : List (String × Option Value)
  visited : List Nat
  blkAddrs : List Nat
  size : Nat
  count : Nat
  counted : List HeapBlock
  expanded : List Nat

/-- Push a work item: `values.append(...)`, with the head of `worklist` as
top of the stack. -/
def pushItem (nm : String) (v : Value) (st : TravState) : TravState :=
  { st with worklist := (nm, some v) :: st.worklist }

/-- The `parent_addr and parent_addr == long(child.address)` test guarding
the first-member-alias discard (lines 205 and 239).  `parent?` is `some`
only for a truthy (present and nonzero) parent address. -/
def parentEq : Option Nat → Option Nat → Bool
  | some pa, some a => pa == a
  | _, _ => false

/-- Dynamic-type re-resolution of lines 183-185: if the basic static type
is not (`is not`) the value's dynamic type, continue with the dynamic type
and the value cast to it. -/
def resolvePtr (h : Host) (value : Value) (ty : GdbType) : GdbType × Value :=
  let dynTy := h.dynamicType value
  if tyBeq ty dynTy then (ty, value) else (dynTy, h.castV value dynTy)

/-- The `TYPE_CODE_PTR` branch (lines 182-197): re-resolve the value at its
dynamic type if that differs from the basic static type, take the pointer's
numeric value, query the heap-block oracle, and if a live block with a base
address not yet in `blk_addrs` is found, account it and (when the target
type has size at least 8) push the dereferenced value.  When the resolved
type has no target (impossible for genuine pointer types; the Python would
raise at `type.target()`), no push happens. -/
def pointerStep (h : Host) (name : String) (value : Value) (ty : GdbType)
    (st : TravState) : TravState :=
  let tv := resolvePtr h value ty
  let addr := h.ptrLong tv.2
  match h.heapBlock addr with
  | none => st
  | some blk =>
    if blk.inuse && !(decide (blk.address ∈ st.blkAddrs)) then
      let st1 := { st with
        blkAddrs := blk.address :: st.blkAddrs,
        size := st.size + blk.size,
        count := st.count + 1,
        counted := blk :: st.counted }
      match targetOf tv.1 with
      | some tt =>
        if 8 ≤ sizeOfTy tt then
          pushItem ("*(" ++ name ++ ")") (h.refValue tv.2) st1
        else st1
      | none => st1
    else st

/-- One iteration of the `TYPE_CODE_ARRAY` element loop (lines 203-207):
fetch `value[i]`, discard the parent address from `unique_value_addrs` when
the element aliases it, and push the element.  A `none` element address
with a truthy parent would raise in Python (`long(None)`); gdb array
elements of an addressable array always have addresses, and the model
simply skips the discard then. -/
def arrayElemStep (h : Host) (name : String) (value : Value)
    (parent? : Option Nat) (st : TravState) (i : Nat) : TravState :=
  let v := h.elemAt value i
  let st1 :=
    if parentEq parent? v.address then
      { st with visited := st.visited.erase (parent?.getD 0) }
    else st
  pushItem (name ++ "[" ++ toString i ++ "]") v st1

/-- The `TYPE_CODE_ARRAY` branch (lines 198-207): `array_size` elements are
pushed in index order. -/
def arrayStep (h : Host) (name : String) (value : Value) (parent? : Option Nat)
    (cnt : Nat) (st : TravState) : TravState :=
  (List.range cnt).foldl (arrayElemStep h name value parent?) st

/-- Printable member name, `str(m.name)`: Python renders `None` as "None". -/
def fieldNameStr (m : GdbField) : String :=
  match m.fname with
  | some s => s
  | none => "None"

/-- Obtaining one member's value (lines 219-224): reinterpret `value` as
the base type for a base-class member (`value.cast(m.type)`); otherwise
`value[m.name]`, guarded by name truthiness (`m.name and ...`) and by
Python `hasattr(value, m.name)`; `none` when neither applies. -/
def memberValue (h : Host) (value : Value) (m : GdbField) : Option Value :=
  if m.isBaseClass then some (h.castV value m.ftype)
  else
    match m.fname with
    | some nm =>
      if nm ≠ "" && h.hasattrV value nm then h.fieldByName value nm else none
    | none => none

/-- Processing of one struct member (lines 214-245): skip members without a
`type` attribute; skip when no member value or no address was obtained;
then, if the member type's size is at least 8 and its code is allowed,
discard the parent address when the member aliases it and push the member. -/
def structFieldStep (h : Host) (name : String) (value : Value)
    (parent? : Option Nat) (st : TravState) (m : GdbField) : TravState :=
  if !m.hasTypeAttr then st
  else
    match memberValue h value m with
    | none => st
    | some memval =>
      match memval.address with
      | none => st
      | some _ =>
        if 8 ≤ sizeOfTy m.ftype && allowedFieldCode m.ftype then
          let st1 :=
            if parentEq parent? memval.address then
              { st with visited := st.visited.erase (parent?.getD 0) }
            else st
          pushItem (name ++ "[" ++ fieldNameStr m ++ "]") memval st1
        else st

/-- The `TYPE_CODE_STRUCT` branch (lines 208-245): members are processed in
declaration order. -/
def structStep (h : Host) (name : String) (value : Value) (parent? : Option Nat)
    (fs : List GdbField) (st : TravState) : TravState :=
  fs.foldl (structFieldStep h name value parent?) st

/-- Dispatch on the basic type (lines 181-245).  Only `TYPE_CODE_PTR`,
`TYPE_CODE_ARRAY` and `TYPE_CODE_STRUCT` expand; every other code — note:
including `TYPE_CODE_UNION` — falls through with no expansion.  The array
element count is `type.sizeof / type.target().sizeof` with floor division
(the script is Python 2); a zero-sized element type would raise
`ZeroDivisionError` in Python and yields count 0 here. -/
def expandValue (h : Host) (name : String) (value : Value) (parent? : Option Nat)
    (st : TravState) : TravState :=
  match getBasicType value.vtype with
  | .ptr t s => pointerStep h name value (.ptr t s) st
  | .arr t s => arrayStep h name value parent? (s / sizeOfTy t) st
  | .strct fs _ => structStep h name value parent? fs st
  | _ => st

/-- One pop of the worklist (lines 167-177 plus dispatch): skip `None` and
optimized-out values; for a truthy address (`if value.address:` — present
and nonzero), skip the item when the address is already in
`unique_value_addrs`, else add it (also to the ghost `expanded` log) and
remember it as `parent_addr`. -/
def processItem (h : Host) (name : String) (v? : Option Value) (st : TravState) :
    TravState :=
  match v? with
  | none => st
  | some value =>
    if value.optimizedOut then st
    else
      match value.address with
      | some a =>
        if a ≠ 0 then
          if a ∈ st.visited then st
          else
            expandValue h name value (some a)
              { st with visited := a :: st.visited, expanded := a :: st.expanded }
        else expandValue h name value none st
      | none => expandValue h name value none st

/-- The `while values:` loop of `heap_usage_value`, with explicit fuel;
`none` means the fuel was exhausted (the Python loop has no fuel; the
termination theorem shows sufficient fuel always exists for well-formed
hosts). -/
def loopF (h : Host) : Nat → TravState → Option TravState
  | 0, _ => none
  | n + 1, st =>
    match st.worklist with
    | [] => some st
    | (nm, v) :: rest => loopF h n (processItem h nm v { st with worklist := rest })

/-- Embedding of `heap_usage_value(name, value, blk_addrs)` (lines 158-247).
The Python function returns `(size, count)` and mutates `blk_addrs` in
place; the model returns the whole final traversal state, from which
callers read `size`, `count` and the updated `blkAddrs`. -/
def heap_usage_value (h : Host) (fuel : Nat) (name : String) (value : Option Value)
    (blkAddrs : List Nat) : Option TravState :=
  loopF h fuel
    { worklist := [(name, value)], visited := [], blkAddrs := blkAddrs,
      size := 0, count := 0, counted := [], expanded := [] }

instance : Inhabited TravState :=
  ⟨{ worklist := [], visited := [], blkAddrs := [], size := 0, count := 0,
     counted := [], expanded := [] }⟩

/-! Concrete host constructions, used to instantiate the theorems below on
explicit inputs. -/

/-- Interval lookup backing the `gdb.heap_block` oracle of the concrete
hosts: the first block whose byte range contains the queried address. -/
def findBlock (heap : List HeapBlock) (a : Nat) : Option HeapBlock :=
  heap.find? (fun b => b.address ≤ a && a < b.address + b.size)

/-- Pointer read of the concrete hosts: `long(value)` reads the word at the
pointer's own address through the memory function `pread`. -/
def stdPtrLong (pread : Nat → Nat) (v : Value) : Nat :=
  match v.address with
  | some a => pread a
  | none => 0

/-- Dereference in the concrete hosts: the result has the pointer's target
type and lives at the pointed-to address. -/
def stdRefValue (pread : Nat → Nat) (v : Value) : Value :=
  { vtype := (targetOf (getBasicType v.vtype)).getD (.prim 0),
    address := some (stdPtrLong pread v),
    optimizedOut := false }

/-- Element access in the concrete hosts: typed by the array's element
type, at the usual element-offset address. -/
def stdElemAt (v : Value) (i : Nat) : Value :=
  match getBasicType v.vtype with
  | .arr t _ =>
    { vtype := t, address := v.address.map (fun a => a + i * sizeOfTy t),
      optimizedOut := false }
  | _ => { vtype := .prim 0, address := none, optimizedOut := false }

/-- Member access in the concrete hosts: the name is looked up in the basic
struct type's field list; the member's address is given by `faddr`. -/
def stdFieldByName (faddr : Value → String → Option Nat) (v : Value)
    (nm : String) : Option Value :=
  match getBasicType v.vtype with
  | .strct fs _ =>
    match fs.find? (fun m => m.fname == some nm) with
    | some m => some { vtype := m.ftype, address := faddr v nm, optimizedOut := false }
    | none => none
  | _ => none

/-- A family of concrete, non-polymorphic gdb hosts: memory is described by
the block list `heap`, the pointer-word reader `pread` and the member
address map `faddr`.  `dynamic_type` coincides with the static type and
`hasattr(value, name)` always succeeds. -/
def stdHost (heap : List HeapBlock) (pread : Nat → Nat)
    (faddr : Value → String → Option Nat) : Host where
  heap := heap
  heapBlock := findBlock heap
  dynamicType := Value.vtype
  castV := fun v t => { v with vtype := t }
  ptrLong := stdPtrLong pread
  refValue := stdRefValue pread
  elemAt := stdElemAt
  hasattrV := fun _ _ => true
  fieldByName := stdFieldByName faddr

/-! Termination measure for the worklist loop. -/

mutual

/-- Structural weight of a type: an upper bound on the worklist growth its
expansion can cause.  A struct budgets each of its members with the sum of
all member-type weights, because the host may answer a member lookup with
any same-named member's type. -/
def weight : GdbType → Nat
  | .ptr t _ => 1 + weight t
  | .ref t _ => 1 + weight t
  | .typedef t _ => 1 + weight t
  | .arr t s => 1 + (s / sizeOfTy t) * (1 + weight t)
  | .strct fs _ => 1 + fs.length * (1 + sumW fs)
  | .union fs _ => 1 + fs.length * (1 + sumW fs)
  | .prim _ => 1

def sumW : List GdbField → Nat
  | [] => 0
  | .mk _ _ _ t :: fs => weight t + sumW fs

end

def itemWeight : String × Option Value → Nat
  | (_, none) => 1
  | (_, some v) => 1 + weight v.vtype

def wlWeight (l : List (String × Option Value)) : Nat :=
  (l.map itemWeight).sum

/-- Number of allocator blocks whose base address is not yet in the
visited-block set: the dominant component of the loop measure, since a
pointee is only ever pushed right after a fresh block was counted. -/
def blocksLeft (h : Host) (blkAddrs : List Nat) : Nat :=
  (h.heap.filter (fun b => !(decide (b.address ∈ blkAddrs)))).length

/-- Consistency conditions a real gdb host satisfies, used for the
termination theorem: the heap-block oracle answers from the (finite)
allocator bookkeeping, a cast has the requested type, an array element has
the array's element type, and a member found by name has the type of one of
the struct's members. -/
structure HostWF (h : Host) : Prop where
  heapBlock_mem : ∀ a blk, h.heapBlock a = some blk → blk ∈ h.heap
  cast_type : ∀ v t, (h.castV v t).vtype = t
  elem_type : ∀ v i t s, getBasicType v.vtype = .arr t s → (h.elemAt v i).vtype = t
  field_type : ∀ v nm val fs s, getBasicType v.vtype = .strct fs s →
    h.fieldByName v nm = some val → ∃ m ∈ fs, val.vtype = m.ftype

/-! Embedding of the whole-process scan, `PrintTopVariableCommand.calc_all_vars`
(lines 320-470 of heapcmd.py). -/

/-- A symbol of a lexical block as the scan observes it: `symbol.name`,
`symbol.is_variable`, whether `get_typename` yields a usable type name, and
the `symbol2value(symbol, frame)` result (`none` models a conversion
failure, reported inside `symbol2value`'s own handler). -/
structure ScanSym where
  sname : String
  isVariable : Bool
  hasTypeName : Bool
  value : Option Value

/-- One syntactic block of a frame: its `is_global or is_static` flag and
its symbols; the `superblock` chain is modelled by the list order. -/
structure ScanBlock where
  isGlobalOrStatic : Bool
  syms : List ScanSym

/-- One stack frame: whether `frame.select()` raises (an exception caught
by the per-frame handler), and the syntactic block chain (`none` models
`frame.block()` raising, which the inner handler turns into `block = None`).
Iteration via `frame.older()` is modelled by the frame list itself. -/
structure ScanFrame where
  selectFails : Bool
  blocks : Option (List ScanBlock)

/-- One thread: its number, whether `thread.switch()` raises and whether
`gdb.newest_frame()` raises after switching to it.  Both calls sit outside
the per-frame `try`, so either failure escapes `calc_all_vars` entirely. -/
structure ScanThread where
  num : Nat
  switchFails : Bool
  newestFails : Bool
  frames : List ScanFrame

/-- One entry of `get_gvs()`: symbol name, defining file, whether
`get_typename` succeeds, and the value.  `get_gvs` only returns symbols
whose value and address exist (line 137). -/
structure GlobalVar where
  gname : String
  filename : String
  hasTypeName : Bool
  value : Value

/-- The host surface of the whole-process scan: the traversal host plus
the thread selected at entry (`gdb.selected_thread()`, `none` when no
thread is selected), the thread list and the `get_gvs()` result. -/
structure ScanHost extends Host where
  selectedThread : Option Nat
  threads : List ScanThread
  gvs : List GlobalVar

/-- State threaded through the scan: the currently selected thread, the
scan-wide root-address set (`unique_value_addrs` of line 321 — note this is
distinct from the per-call set `heap_usage_value` creates at line 159), the
shared `blk_addrs` set of line 322, the result rows, the running totals,
and ghost logs accumulating every traversal's `expanded` and `counted`
logs across the whole scan. -/
structure ScanState where
  selected : Option Nat
  uniqueRoots : List Nat
  blkAddrs : List Nat
  results : List (String × Nat × Nat)
  totalBytes : Nat
  totalCount : Nat
  expandedLog : List Nat
  countedLog : List HeapBlock

instance : Inhabited ScanState :=
  ⟨{ selected := none, uniqueRoots := [], blkAddrs := [], results := [],
     totalBytes := 0, totalCount := 0, expandedLog := [], countedLog := [] }⟩

/-- Run `heap_usage_value` for one root (lines 399-404 and 446-455): the
shared `blk_addrs` is threaded through, and a result row/totals update
happens only when both size and count are nonzero (`if sz and cnt:`). -/
def runRoot (h : ScanHost) (fuel : Nat) (rootId : String) (symName : String)
    (v : Value) (st : ScanState) : Option ScanState :=
  match heap_usage_value h.toHost fuel symName (some v) st.blkAddrs with
  | none => none
  | some r =>
    let st1 := { st with
                  blkAddrs := r.blkAddrs,
                  expandedLog := r.expanded ++ st.expandedLog,
                  countedLog := r.counted ++ st.countedLog }
    some (if r.size ≠ 0 ∧ r.count ≠ 0 then
           { st1 with
              results := st1.results ++ [(rootId, r.size, r.count)],
              totalBytes := st1.totalBytes + r.size,
              totalCount := st1.totalCount + r.count }
          else st1)

/-- Lines 365-408: process one symbol of a block.  `seen` is the per-frame
`symbol_names` set; a root whose address (`is not None`, zero included) was
already seen scan-wide is skipped, otherwise its address joins the
scan-wide root set before the traversal runs. -/
def processSym (h : ScanHost) (fuel : Nat) (tnum fidx : Nat) (sym : ScanSym)
    (acc : List String × ScanState) : Option (List String × ScanState) :=
  let seen := acc.1
  let st := acc.2
  if !sym.isVariable then some (seen, st)
  else if sym.sname ∈ seen then some (seen, st)
  else
    let seen1 := sym.sname :: seen
    if !sym.hasTypeName then some (seen1, st)
    else
      match sym.value with
      | none => some (seen1, st)
      | some v =>
        let rid := "thread " ++ toString tnum ++ " frame [" ++ toString fidx ++ "] "
          ++ sym.sname
        match v.address with
        | some a =>
          if a ∈ st.uniqueRoots then some (seen1, st)
          else
            match runRoot h fuel rid sym.sname v
                { st with uniqueRoots := a :: st.uniqueRoots } with
            | none => none
            | some st' => some (seen1, st')
        | none =>
          match runRoot h fuel rid sym.sname v st with
          | none => none
          | some st' => some (seen1, st')

/-- Lines 359-409: iterate the block chain, stopping at the first global or
static block (`break`), with the `symbol_names` set scoped to the frame. -/
def processFrameBlocks (h : ScanHost) (fuel : Nat) (tnum fidx : Nat)
    (blks : List ScanBlock) (st : ScanState) : Option ScanState :=
  match (blks.takeWhile (fun b => !b.isGlobalOrStatic)).foldlM
      (fun acc b => b.syms.foldlM (fun acc s => processSym h fuel tnum fidx s acc) acc)
      (([] : List String), st) with
  | none => none
  | some r => some r.2

/-- Lines 343-412: one frame inside the per-frame exception handler; a
`frame.select()` failure is caught and processes nothing, a missing block
is handled by the inner `try`. -/
def processFrame (h : ScanHost) (fuel : Nat) (tnum fidx : Nat) (fr : ScanFrame)
    (st : ScanState) : Option ScanState :=
  if fr.selectFails then some st
  else
    match fr.blocks with
    | none => some st
    | some blks => processFrameBlocks h fuel tnum fidx blks st

/-- Outcome of the scan: normal completion, or an abort by an exception
escaping to `invoke` (which reports it and returns).  Both keep the final
scan state, including which thread ended up selected. -/
inductive ScanOutcome where
  | ok (st : ScanState)
  | aborted (st : ScanState)

def ScanOutcome.stateOf : ScanOutcome → ScanState
  | .ok st => st
  | .aborted st => st

def ScanOutcome.isAborted : ScanOutcome → Bool
  | .ok _ => false
  | .aborted _ => true

/-- Lines 333-414: one thread.  `thread.switch()` and `gdb.newest_frame()`
sit outside the per-frame `try`; a failure of either escapes (`.error`),
with the selection already moved if the switch had succeeded. -/
def processThread (h : ScanHost) (fuel : Nat) (t : ScanThread) (st : ScanState) :
    Option (Except ScanState ScanState) :=
  if t.switchFails then some (.error st)
  else
    let st1 := { st with selected := some t.num }
    if t.newestFails then some (.error st1)
    else
      match (t.frames.enum).foldlM
          (fun s p => processFrame h fuel t.num p.1 p.2 s) st1 with
      | none => none
      | some st2 => some (.ok st2)

def goThreads (h : ScanHost) (fuel : Nat) : List ScanThread → ScanState →
    Option (Except ScanState ScanState)
  | [], st => some (.ok st)
  | t :: ts, st =>
    match processThread h fuel t st with
    | none => none
    | some (.error st') => some (.error st')
    | some (.ok st') => goThreads h fuel ts st'

/-- The globals dedup loop of lines 422-429, transcribed with Python's
semantics of iterating a list while calling `pop(index)` on it: the list
cursor and `index` advance together, so the pop removes the current element
but the element that shifts into its slot is skipped by the next iteration
and is never dedup-checked.  `long(v.address)` cannot fail here because
`get_gvs` only returns values with an address.  The structural argument
`steps` bounds the iteration count; the cursor advances every iteration and
the list never grows, so the initial list length (supplied by `dedupGvs`)
always suffices and the loop stops at the cursor bound exactly as the
Python iteration does. -/
def dedupGvsAux : Nat → List Nat → List GlobalVar → Nat → List GlobalVar × List Nat
  | 0, unique, gvs, _ => (gvs, unique)
  | steps + 1, unique, gvs, cursor =>
    if hc : cursor < gvs.length then
      let addr := (gvs.get ⟨cursor, hc⟩).value.address.getD 0
      if addr ∈ unique then dedupGvsAux steps unique (gvs.eraseIdx cursor) (cursor + 1)
      else dedupGvsAux steps (addr :: unique) gvs (cursor + 1)
    else (gvs, unique)

def dedupGvs (unique : List Nat) (gvs : List GlobalVar) : List GlobalVar × List Nat :=
  dedupGvsAux gvs.length unique gvs 0

/-- Stable ascending insertion by file name, modelling Python's stable
`sorted(gvs, key=lambda gv: gv[0].symtab.filename)` (line 431). -/
def insertGv (x : GlobalVar) : List GlobalVar → List GlobalVar
  | [] => [x]
  | y :: ys => if decide (x.filename ≤ y.filename) then x :: y :: ys else y :: insertGv x ys

def sortGvs : List GlobalVar → List GlobalVar
  | [] => []
  | x :: xs => insertGv x (sortGvs xs)

/-- The globals pass (lines 431-459): surviving globals sorted by file
name; entries without a type name are skipped; the traversal runs with the
shared block set. -/
def goGvs (h : ScanHost) (fuel : Nat) (gvs : List GlobalVar) (st : ScanState) :
    Option ScanState :=
  gvs.foldlM
    (fun s gv =>
      if !gv.hasTypeName then some s
      else runRoot h fuel (gv.filename ++ " " ++ gv.gname) gv.gname gv.value s)
    st

/-- Embedding of `PrintTopVariableCommand.calc_all_vars` (lines 320-470):
remember the selected thread, walk every thread/frame/block/symbol, restore
the selection at line 417 (there is no `try`/`finally`, so an exception
escaping the per-thread processing skips the restore, and a `None` original
selection makes the restore itself raise), then dedup and walk the globals.
`none` means a traversal ran out of fuel (a model artifact only). -/
def calcAllVars (h : ScanHost) (fuel : Nat) : Option ScanOutcome :=
  match goThreads h fuel h.threads
      { selected := h.selectedThread, uniqueRoots := [], blkAddrs := [], results := [],
        totalBytes := 0, totalCount := 0, expandedLog := [], countedLog := [] } with
  | none => none
  | some (.error st) => some (.aborted st)
  | some (.ok st) =>
    match h.selectedThread with
    | none => some (.aborted st)
    | some orig =>
      let st1 := { st with selected := some orig }
      let dd := dedupGvs st1.uniqueRoots h.gvs
      let st2 := { st1 with uniqueRoots := dd.2 }
      let sorted := sortGvs dd.1
      match goGvs h fuel sorted st2 with
      | none => none
      | some st3 => some (.ok st3)

/-! Embedding of the single-expression mode,
`PrintTopVariableCommand.calc_input_vars` (lines 289-318). -/

/-- Host surface of `calc_input_vars`: `gdb.parse_and_eval` (which either
returns a value or raises), Python truthiness of a `gdb.Value`, and
`gdb.lookup_global_symbol` composed with `symbol2value` (`none`: no symbol;
`some none`: symbol found but no value). -/
structure CmdHost extends Host where
  parseAndEval : String → Except String Value
  truthy : Value → Bool
  lookupGS : String → Option (Option Value)

/-- Result of `calc_input_vars`: the per-expression result rows actually
printed, a ghost log of expressions whose failure was reported, and the
message of an exception that escaped to `invoke` (which aborts the
remaining expressions). -/
structure CmdState where
  entries : List (String × Nat × Nat)
  reported : List String
  aborted : Option String

/-- The `for expr in tokens` loop of lines 298-318.  A raised
`parse_and_eval` escapes to `invoke`'s handler, abandoning the remaining
tokens; a falsy result falls back to `lookup_global_symbol`; the expression
is processed (with a fresh `blk_addrs = set()`, line 311) only when the
final value is truthy, otherwise the failure is reported and the loop
continues. -/
def calcInputVarsGo (h : CmdHost) (fuel : Nat) : List String → CmdState → Option CmdState
  | [], st => some st
  | expr :: rest, st =>
    match h.parseAndEval expr with
    | .error msg => some { st with aborted := some msg }
    | .ok v0 =>
      let v? : Option Value :=
        if h.truthy v0 then some v0
        else
          match h.lookupGS expr with
          | some (some v1) => some v1
          | _ => none
      match v? with
      | some v =>
        if h.truthy v then
          match heap_usage_value h.toHost fuel expr (some v) [] with
          | none => none
          | some r =>
            calcInputVarsGo h fuel rest
              { st with entries := st.entries ++ [(expr, r.size, r.count)] }
        else calcInputVarsGo h fuel rest { st with reported := st.reported ++ [expr] }
      | none => calcInputVarsGo h fuel rest { st with reported := st.reported ++ [expr] }

/-- Helper of `splitTokens`: split a character list at spaces, `acc`
holding the current token reversed. -/
def tokensAux : List Char → List Char → List String
  | [], [] => []
  | [], acc => [String.mk acc.reverse]
  | c :: cs, acc =>
    if c = ' ' then
      match acc with
      | [] => tokensAux cs []
      | _ => String.mk acc.reverse :: tokensAux cs []
    else tokensAux cs (c :: acc)

/-- Python `argument.split()`: tokens separated by blank runs (modelled
with the space character), empty tokens dropped. -/
def splitTokens (argument : String) : List String :=
  tokensAux argument.toList []

/-- Embedding of `calc_input_vars(argument)` (lines 289-318); an empty
token list is reported as an invalid argument and nothing is evaluated. -/
def calcInputVars (h : CmdHost) (fuel : Nat) (argument : String) : Option CmdState :=
  let tokens := splitTokens argument
  if tokens.isEmpty then
    some { entries := [], reported := ["invalid argument"], aborted := none }
  else
    calcInputVarsGo h fuel tokens { entries := [], reported := [], aborted := none }

/-- Scan-wide accounting invariant: the shared visited-block set is exactly
the list of base addresses of the blocks counted so far across the whole
scan, and no base address occurs twice. -/
def ScanInv (st : ScanState) : Prop :=
  st.blkAddrs = st.countedLog.map HeapBlock.address ∧
    (st.countedLog.map HeapBlock.address).Nodup

/-- The scan state carried by either outcome of the per-thread loop. -/
def exceptState : Except ScanState ScanState → ScanState
  | .error st => st
  | .ok st => st

/-! Concrete hosts and values used to instantiate the theorems below on
explicit inputs. -/

def tyPtr16 : GdbType := .ptr (.prim 16) 8

def tyPtr8 : GdbType := .ptr (.prim 8) 8

def tyPtr4 : GdbType := .ptr (.prim 4) 8

def emptyTrav : TravState :=
  { worklist := [], visited := [], blkAddrs := [], size := 0, count := 0,
    counted := [], expanded := [] }

/-- Diamond sharing: a struct whose members `p` (at offset 8) and `q` (at
offset 16) both point at the same live 16-byte block at 1000. -/
def tyC1 : GdbType :=
  .strct [.mk (some "p") false true tyPtr16, .mk (some "q") false true tyPtr16] 24

def hostC1 : Host := stdHost [⟨1000, 16, true⟩]
  (fun a => if a = 208 then 1000 else if a = 216 then 1000 else 0)
  (fun v nm =>
    match v.address with
    | some a => if nm = "p" then some (a + 8) else if nm = "q" then some (a + 16) else none
    | none => none)

def vC1 : Value := ⟨tyC1, some 200, false⟩

def rC1 : TravState := (heap_usage_value hostC1 10 "t" (some vC1) []).getD default

/-- Self-reference: a struct at 100 whose member `self` (at 108) holds the
struct's own address; no heap blocks exist. -/
def tyC2 : GdbType := .strct [.mk (some "self") false true tyPtr8] 16

def hostC2 : Host := stdHost [] (fun a => if a = 108 then 100 else 0)
  (fun v nm =>
    match v.address with
    | some a => if nm = "self" then some (a + 8) else none
    | none => none)

def vC2 : Value := ⟨tyC2, some 100, false⟩

def stC2 : TravState := { emptyTrav with visited := [100] }

/-- First-member aliasing: a struct at 100 whose member `f` reports the
struct's own address, and an array of two pointers at 200 whose zero-index
element reports the array's own address. -/
def mC3 : GdbField := .mk (some "f") false true tyPtr8

def tyC3s : GdbType := .strct [mC3] 8

def tyC3a : GdbType := .arr tyPtr8 16

def hostC3 : Host := stdHost [] (fun _ => 0)
  (fun v nm => if nm = "f" then v.address else none)

def vC3s : Value := ⟨tyC3s, some 100, false⟩

def vC3a : Value := ⟨tyC3a, some 200, false⟩

def mvC3 : Value := ⟨tyPtr8, some 100, false⟩

def stC3s : TravState := { emptyTrav with visited := [100] }

def stC3a : TravState := { emptyTrav with visited := [200] }

/-- A union and a struct with the same single member `p`, an 8-byte pointer
at the container's own address whose word points into the live 16-byte
block at 1000. -/
def mC4 : GdbField := .mk (some "p") false true tyPtr16

def tyC4u : GdbType := .union [mC4] 8

def tyC4s : GdbType := .strct [mC4] 8

def hostC4 : Host := stdHost [⟨1000, 16, true⟩] (fun a => if a = 100 then 1000 else 0)
  (fun v nm => if nm = "p" then v.address else none)

def vC4u : Value := ⟨tyC4u, some 100, false⟩

def vC4s : Value := ⟨tyC4s, some 100, false⟩

def mC4bad : GdbField := .mk (some "z") false false (.prim 64)

def mC4base : GdbField := .mk (some "Base") true true (.prim 16)

/-- A pointer at 100 with a 4-byte target whose word points into the live
block at 1000. -/
def hostC5 : Host := stdHost [⟨1000, 16, true⟩] (fun a => if a = 100 then 1000 else 0)
  (fun _ _ => none)

def vC5 : Value := ⟨tyPtr4, some 100, false⟩

/-- A pointer at 100 whose word (999) lies in no allocator block. -/
def hostC10 : Host := stdHost [] (fun _ => 999) (fun _ _ => none)

def vC10 : Value := ⟨tyPtr16, some 100, false⟩

/-- Scan host for the shared-block-set witness: two stack pointers at 50
and 60 both referencing the live block at 1000. -/
def scanC6w : ScanHost :=
  { stdHost [⟨1000, 16, true⟩] (fun a => if a = 50 ∨ a = 60 then 1000 else 0)
      (fun _ _ => none) with
    selectedThread := some 1
    threads := [⟨1, false, false, [⟨false, some [⟨false,
      [⟨"a", true, true, some ⟨tyPtr16, some 50, false⟩⟩,
       ⟨"b", true, true, some ⟨tyPtr16, some 60, false⟩⟩]⟩]⟩]⟩]
    gvs := [] }

def outC6w : ScanOutcome := (calcAllVars scanC6w 20).getD (.aborted default)

/-- Scan host refuting the shared-address-set reading: two struct roots at
100 and 200 whose member `c` (an 8-byte empty struct) lives at 300 in both
— each root's traversal expands address 300. -/
def tyC6c : GdbType := .strct [] 8

def tyC6s : GdbType := .strct [.mk (some "c") false true tyC6c] 16

def scanC6 : ScanHost :=
  { stdHost [] (fun _ => 0) (fun _ nm => if nm = "c" then some 300 else none) with
    selectedThread := some 1
    threads := [⟨1, false, false, [⟨false, some [⟨false,
      [⟨"x", true, true, some ⟨tyC6s, some 100, false⟩⟩,
       ⟨"y", true, true, some ⟨tyC6s, some 200, false⟩⟩]⟩]⟩]⟩]
    gvs := [] }

/-- Scan host for the globals-dedup bug: stack variables at 50 and 60 put
both addresses in the scan-wide root set; the globals list then holds `gA`
at 50 (popped by the dedup) and `gB` at 60, which the skipped check leaves
in place although its address was already counted — and whose pointer then
adds the 16-byte block at 1000. -/
def scanC7 : ScanHost :=
  { stdHost [⟨1000, 16, true⟩] (fun a => if a = 60 then 1000 else 0)
      (fun _ _ => none) with
    selectedThread := some 1
    threads := [⟨1, false, false, [⟨false, some [⟨false,
      [⟨"a", true, true, some ⟨.prim 8, some 50, false⟩⟩,
       ⟨"b", true, true, some ⟨.prim 8, some 60, false⟩⟩]⟩]⟩]⟩]
    gvs := [⟨"gA", "f.c", true, ⟨.prim 8, some 50, false⟩⟩,
            ⟨"gB", "f.c", true, ⟨tyPtr4, some 60, false⟩⟩] }

def gvA7 : GlobalVar := ⟨"gA", "f.c", true, ⟨.prim 8, some 50, false⟩⟩

def gvB7 : GlobalVar := ⟨"gB", "f.c", true, ⟨tyPtr4, some 60, false⟩⟩

/-- Scan host whose single (empty) thread is the selected one: the scan
completes normally. -/
def scanC9ok : ScanHost :=
  { stdHost [] (fun _ => 0) (fun _ _ => none) with
    selectedThread := some 1
    threads := [⟨1, false, false, []⟩]
    gvs := [] }

def stC9 : ScanState := ((calcAllVars scanC9ok 2).getD (.aborted default)).stateOf

/-- Scan host where switching to thread 2 succeeds but `gdb.newest_frame()`
then raises: the exception escapes and thread 2 stays selected. -/
def scanC9bad : ScanHost :=
  { stdHost [] (fun _ => 0) (fun _ _ => none) with
    selectedThread := some 1
    threads := [⟨2, false, true, []⟩]
    gvs := [] }

/-- Command host where `parse_and_eval` raises on `bad` and yields a truthy
value for every other expression. -/
def cmdC8 : CmdHost :=
  { stdHost [] (fun _ => 0) (fun _ _ => none) with
    parseAndEval := fun e =>
      if e = "bad" then .error "No symbol bad in current context." else .ok ⟨.prim 8, some 10, false⟩
    truthy := fun _ => true
    lookupGS := fun _ => none }

/-- Command host where `bad` evaluates to a falsy value (and the global
lookup finds nothing) while every other expression is truthy. -/
def cmdC8w : CmdHost :=
  { stdHost [] (fun _ => 0) (fun _ _ => none) with
    parseAndEval := fun e =>
      if e = "bad" then .ok ⟨.prim 8, some 0, false⟩ else .ok ⟨.prim 8, some 10, false⟩
    truthy := fun v => decide (v.address ≠ some 0)
    lookupGS := fun _ => none }

def emptyCmd : CmdState := { entries := [], reported := [], aborted := none }

/-! Bookkeeping lemmas about the traversal steps. -/

/-- The accounting part of the traversal state: everything except the
worklist and the visited-address set. -/
def acct (st : TravState) : List Nat × Nat × Nat × List HeapBlock × List Nat :=
  (st.blkAddrs, st.size, st.count, st.counted, st.expanded)

theorem acct_parts {st st' : TravState} (h : acct st' = acct st) :
    st'.blkAddrs = st.blkAddrs ∧ st'.size = st.size ∧ st'.count = st.count ∧
      st'.counted = st.counted ∧ st'.expanded = st.expanded := by
  simp only [acct, Prod.mk.injEq] at h
  exact ⟨h.1, h.2.1, h.2.2.1, h.2.2.2.1, h.2.2.2.2⟩

theorem foldl_acct {α : Type} (f : TravState → α → TravState)
    (hf : ∀ st a, acct (f st a) = acct st) :
    ∀ (l : List α) (st : TravState), acct (l.foldl f st) = acct st := by
  intro l
  induction l with
  | nil => intro st; rfl
  | cons a l ih => intro st; rw [List.foldl_cons, ih, hf]

theorem foldl_worklist_mono {α : Type} (f : TravState → α → TravState)
    (hf : ∀ st a x, x ∈ st.worklist → x ∈ (f st a).worklist) :
    ∀ (l : List α) (st : TravState) (x), x ∈ st.worklist → x ∈ (l.foldl f st).worklist := by
  intro l
  induction l with
  | nil => intro st x hx; exact hx
  | cons a l ih => intro st x hx; rw [List.foldl_cons]; exact ih _ x (hf st a x hx)

theorem foldl_visited_sub {α : Type} (f : TravState → α → TravState)
    (hf : ∀ st a x, x ∈ (f st a).visited → x ∈ st.visited) :
    ∀ (l : List α) (st : TravState) (x), x ∈ (l.foldl f st).visited → x ∈ st.visited := by
  intro l
  induction l with
  | nil => intro st x hx; exact hx
  | cons a l ih => intro st x hx; rw [List.foldl_cons] at hx; exact hf st a x (ih _ x hx)

theorem arrayElemStep_acct (h : Host) (name : String) (value : Value)
    (parent? : Option Nat) (st : TravState) (i : Nat) :
    acct (arrayElemStep h name value parent? st i) = acct st := by
  simp only [arrayElemStep, pushItem]
  split <;> rfl

theorem arrayElemStep_worklist_mono (h : Host) (name : String) (value : Value)
    (parent? : Option Nat) (st : TravState) (i : Nat) (x) (hx : x ∈ st.worklist) :
    x ∈ (arrayElemStep h name value parent? st i).worklist := by
  simp only [arrayElemStep, pushItem]
  split <;> exact List.mem_cons_of_mem _ hx

theorem arrayElemStep_visited_sub (h : Host) (name : String) (value : Value)
    (parent? : Option Nat) (st : TravState) (i : Nat) (x)
    (hx : x ∈ (arrayElemStep h name value parent? st i).visited) : x ∈ st.visited := by
  simp only [arrayElemStep, pushItem] at hx
  split at hx
  · exact List.mem_of_mem_erase hx
  · exact hx

theorem arrayStep_acct (h : Host) (name : String) (value : Value)
    (parent? : Option Nat) (cnt : Nat) (st : TravState) :
    acct (arrayStep h name value parent? cnt st) = acct st :=
  foldl_acct _ (fun st i => arrayElemStep_acct h name value parent? st i) _ st

theorem arrayStep_worklist_mono (h : Host) (name : String) (value : Value)
    (parent? : Option Nat) (cnt : Nat) (st : TravState) (x) (hx : x ∈ st.worklist) :
    x ∈ (arrayStep h name value parent? cnt st).worklist :=
  foldl_worklist_mono _ (fun st i => arrayElemStep_worklist_mono h name value parent? st i) _ st x hx

theorem arrayStep_visited_sub (h : Host) (name : String) (value : Value)
    (parent? : Option Nat) (cnt : Nat) (st : TravState) (x)
    (hx : x ∈ (arrayStep h name value parent? cnt st).visited) : x ∈ st.visited :=
  foldl_visited_sub _ (fun st i => arrayElemStep_visited_sub h name value parent? st i) _ st x hx

theorem structFieldStep_acct (h : Host) (name : String) (value : Value)
    (parent? : Option Nat) (st : TravState) (m : GdbField) :
    acct (structFieldStep h name value parent? st m) = acct st := by
  simp only [structFieldStep, pushItem]
  split
  · rfl
  · split
    · rfl
    · split
      · rfl
      · split
        · split <;> rfl
        · rfl

theorem structFieldStep_worklist_mono (h : Host) (name : String) (value : Value)
    (parent? : Option Nat) (st : TravState) (m : GdbField) (x) (hx : x ∈ st.worklist) :
    x ∈ (structFieldStep h name value parent? st m).worklist := by
  simp only [structFieldStep, pushItem]
  split
  · exact hx
  · split
    · exact hx
    · split
      · exact hx
      · split
        · split <;> exact List.mem_cons_of_mem _ hx
        · exact hx

theorem structFieldStep_visited_sub (h : Host) (name : String) (value : Value)
    (parent? : Option Nat) (st : TravState) (m : GdbField) (x)
    (hx : x ∈ (structFieldStep h name value parent? st m).visited) : x ∈ st.visited := by
  simp only [structFieldStep, pushItem] at hx
  split at hx
  · exact hx
  · split at hx
    · exact hx
    · split at hx
      · exact hx
      · split at hx
        · split at hx
          · exact List.mem_of_mem_erase hx
          · exact hx
        · exact hx

theorem structStep_acct (h : Host) (name : String) (value : Value)
    (parent? : Option Nat) (fs : List GdbField) (st : TravState) :
    acct (structStep h name value parent? fs st) = acct st :=
  foldl_acct _ (fun st m => structFieldStep_acct h name value parent? st m) fs st

theorem structStep_worklist_mono (h : Host) (name : String) (value : Value)
    (parent? : Option Nat) (fs : List GdbField) (st : TravState) (x) (hx : x ∈ st.worklist) :
    x ∈ (structStep h name value parent? fs st).worklist :=
  foldl_worklist_mono _ (fun st m => structFieldStep_worklist_mono h name value parent? st m) fs st x hx

theorem structStep_visited_sub (h : Host) (name : String) (value : Value)
    (parent? : Option Nat) (fs : List GdbField) (st : TravState) (x)
    (hx : x ∈ (structStep h name value parent? fs st).visited) : x ∈ st.visited :=
  foldl_visited_sub _ (fun st m => structFieldStep_visited_sub h name value parent? st m) fs st x hx

/-- Where a worklist item of a struct member step can come from: it was
already there, or it is the push of an accessible member that passed the
size-and-kind filter. -/
theorem structFieldStep_worklist_cases (h : Host) (name : String) (value : Value)
    (parent? : Option Nat) (st : TravState) (m : GdbField) (x)
    (hx : x ∈ (structFieldStep h name value parent? st m).worklist) :
    x ∈ st.worklist ∨
      (m.hasTypeAttr = true ∧ ∃ mv, memberValue h value m = some mv ∧
        mv.address.isSome = true ∧ 8 ≤ sizeOfTy m.ftype ∧ allowedFieldCode m.ftype = true ∧
        x = (name ++ "[" ++ fieldNameStr m ++ "]", some mv)) := by
  simp only [structFieldStep, pushItem] at hx
  split at hx
  · exact Or.inl hx
  · rename_i hattr
    split at hx
    · exact Or.inl hx
    · rename_i mv hmv
      split at hx
      · exact Or.inl hx
      · rename_i a ha
        split at hx
        · rename_i hfilter
          have hf : 8 ≤ sizeOfTy m.ftype ∧ allowedFieldCode m.ftype = true := by
            simpa using hfilter
          split at hx <;>
          · rcases List.mem_cons.mp hx with hx' | hx'
            · exact Or.inr ⟨by simpa using hattr, mv, hmv, by simp [ha], hf.1, hf.2, hx'⟩
            · exact Or.inl hx'
        · exact Or.inl hx

theorem structStep_worklist_cases (h : Host) (name : String) (value : Value)
    (parent? : Option Nat) (fs : List GdbField) (st : TravState) (x)
    (hx : x ∈ (structStep h name value parent? fs st).worklist) :
    x ∈ st.worklist ∨
      ∃ m ∈ fs, m.hasTypeAttr = true ∧ ∃ mv, memberValue h value m = some mv ∧
        mv.address.isSome = true ∧ 8 ≤ sizeOfTy m.ftype ∧ allowedFieldCode m.ftype = true ∧
        x = (name ++ "[" ++ fieldNameStr m ++ "]", some mv) := by
  induction fs generalizing st with
  | nil => exact Or.inl hx
  | cons m fs ih =>
    rw [structStep, List.foldl_cons] at hx
    rcases ih _ hx with hx' | ⟨m', hm', rest⟩
    · rcases structFieldStep_worklist_cases h name value parent? st m x hx' with hx'' | hpush
      · exact Or.inl hx''
      · exact Or.inr ⟨m, List.mem_cons_self m fs, hpush⟩
    · exact Or.inr ⟨m', List.mem_cons_of_mem m hm', rest⟩

/-! Accounting of counted blocks through one traversal step. -/

/-- One expansion either leaves the block accounting untouched, or counts
exactly one block whose base address was not yet in `blk_addrs`. -/
theorem expandValue_counts (h : Host) (name : String) (value : Value)
    (parent? : Option Nat) (st : TravState) :
    (let st' := expandValue h name value parent? st
     (st'.counted = st.counted ∧ st'.blkAddrs = st.blkAddrs ∧
        st'.size = st.size ∧ st'.count = st.count) ∨
      ∃ blk, blk.address ∉ st.blkAddrs ∧ st'.counted = blk :: st.counted ∧
        st'.blkAddrs = blk.address :: st.blkAddrs ∧
        st'.size = st.size + blk.size ∧ st'.count = st.count + 1) := by
  unfold expandValue
  split
  · -- pointer branch
    rename_i t s _
    simp only [pointerStep, pushItem]
    split
    · exact Or.inl ⟨rfl, rfl, rfl, rfl⟩
    · rename_i blk hblk
      split
      · rename_i hcond
        have hfresh : blk.address ∉ st.blkAddrs := by
          have := (Bool.and_eq_true _ _).mp hcond |>.2
          simpa using this
        refine Or.inr ⟨blk, hfresh, ?_⟩
        split
        · split <;> exact ⟨rfl, rfl, rfl, rfl⟩
        · exact ⟨rfl, rfl, rfl, rfl⟩
      · exact Or.inl ⟨rfl, rfl, rfl, rfl⟩
  · -- array branch
    rename_i t s _
    have hp := acct_parts (arrayStep_acct h name value parent? (s / sizeOfTy t) st)
    exact Or.inl ⟨hp.2.2.2.1, hp.1, hp.2.1, hp.2.2.1⟩
  · -- struct branch
    rename_i fs s _
    have := acct_parts (structStep_acct h name value parent? fs st)
    exact Or.inl ⟨this.2.2.2.1, this.1, this.2.1, this.2.2.1⟩
  · exact Or.inl ⟨rfl, rfl, rfl, rfl⟩

/-- One worklist pop either leaves the block accounting untouched, or
counts exactly one fresh block. -/
theorem processItem_counts (h : Host) (nm : String) (v : Option Value) (st : TravState) :
    (let st' := processItem h nm v st
     (st'.counted = st.counted ∧ st'.blkAddrs = st.blkAddrs ∧
        st'.size = st.size ∧ st'.count = st.count) ∨
      ∃ blk, blk.address ∉ st.blkAddrs ∧ st'.counted = blk :: st.counted ∧
        st'.blkAddrs = blk.address :: st.blkAddrs ∧
        st'.size = st.size + blk.size ∧ st'.count = st.count + 1) := by
  unfold processItem
  split
  · exact Or.inl ⟨rfl, rfl, rfl, rfl⟩
  · rename_i value
    split
    · exact Or.inl ⟨rfl, rfl, rfl, rfl⟩
    · split
      · rename_i a ha
        split
        · split
          · exact Or.inl ⟨rfl, rfl, rfl, rfl⟩
          · exact expandValue_counts h nm value (some a) _
        · exact expandValue_counts h nm value none st
      · exact expandValue_counts h nm value none st

/-- Accumulated accounting across the whole worklist loop: relative to the
starting state, the loop appends a list `new` of counted blocks whose base
addresses are pairwise distinct and disjoint from the starting `blk_addrs`,
and the size/count deltas are exactly the sum of sizes and the length of
`new`. -/
theorem loopF_counted (h : Host) : ∀ (n : Nat) (st r : TravState),
    loopF h n st = some r →
    ∃ new : List HeapBlock,
      r.counted = new ++ st.counted ∧
      r.blkAddrs = new.map HeapBlock.address ++ st.blkAddrs ∧
      r.size = st.size + (new.map HeapBlock.size).sum ∧
      r.count = st.count + new.length ∧
      (new.map HeapBlock.address).Nodup ∧
      ∀ a ∈ new.map HeapBlock.address, a ∉ st.blkAddrs := by
  intro n
  induction n with
  | zero => intro st r hr; simp [loopF] at hr
  | succ n ih =>
    intro st r hr
    rw [loopF] at hr
    split at hr
    · obtain rfl : st = r := by simpa using hr
      exact ⟨[], by simp⟩
    · rename_i nm v rest hwl
      obtain ⟨new2, h1, h2, h3, h4, h5, h6⟩ := ih _ r hr
      rcases processItem_counts h nm v { st with worklist := rest } with hstep | ⟨blk, hfresh, e1, e2, e3, e4⟩
      · obtain ⟨e1, e2, e3, e4⟩ := hstep
        refine ⟨new2, ?_, ?_, ?_, ?_, h5, ?_⟩
        · rw [h1, e1]
        · rw [h2, e2]
        · rw [h3, e3]
        · rw [h4, e4]
        · intro a ha
          have := h6 a ha
          rw [e2] at this
          exact this
      · refine ⟨new2 ++ [blk], ?_, ?_, ?_, ?_, ?_, ?_⟩
        · rw [h1, e1]; simp
        · rw [h2, e2]; simp
        · rw [h3, e3]; simp [Nat.add_assoc, Nat.add_comm blk.size]
        · rw [h4, e4]; simp [Nat.add_assoc, Nat.add_comm 1]
        · rw [List.map_append]
          refine List.Nodup.append h5 (by simp) ?_
          intro a ha hb
          have := h6 a ha
          rw [e2] at this
          simp at hb
          exact this (hb ▸ List.mem_cons_self _ _)
        · intro a ha
          rw [List.map_append] at ha
          rcases List.mem_append.mp ha with ha' | ha'
          · have := h6 a ha'
            rw [e2] at this
            exact fun hmem => this (List.mem_cons_of_mem _ hmem)
          · simp at ha'
            exact ha' ▸ hfresh

/-- C1: within one `heap_usage_value` call, every live heap block reached
through a pointer is accounted exactly once — the returned byte total is
the sum of the sizes of the distinct counted blocks, the returned block
count is their number, the visited-block set grows by exactly their base
addresses, those base addresses are pairwise distinct, and none of them was
already in the shared visited-block set passed in. -/
theorem c1_blocks_counted_once (h : Host) (fuel : Nat) (name : String)
    (value : Option Value) (blkAddrs : List Nat) (r : TravState)
    (hr : heap_usage_value h fuel name value blkAddrs = some r) :
    r.blkAddrs = r.counted.map HeapBlock.address ++ blkAddrs ∧
    r.size = (r.counted.map HeapBlock.size).sum ∧
    r.count = r.counted.length ∧
    (r.counted.map HeapBlock.address).Nodup ∧
    ∀ a ∈ r.counted.map HeapBlock.address, a ∉ blkAddrs := by
  obtain ⟨new, h1, h2, h3, h4, h5, h6⟩ := loopF_counted h fuel _ r hr
  simp only [List.append_nil] at h1
  subst h1
  exact ⟨by simpa using h2, by simpa using h3, by simpa using h4, h5, by simpa using h6⟩

/-- C3: first-member aliasing.  For a struct whose (accessible, filtered)
first member reports the same address `pa` as the struct itself, and for an
array whose zero-index element reports the same address as the array, the
expansion removes `pa` from the visited-address set again (lines 203-207
and 239-245) and pushes the member/element, so the child is free to be
expanded rather than skipped as already visited. -/
theorem c3_first_member_alias :
    (∀ (h : Host) (name : String) (value : Value) (pa : Nat) (m : GdbField)
       (fs : List GdbField) (sz : Nat) (st : TravState) (memval : Value),
       getBasicType value.vtype = .strct (m :: fs) sz →
       st.visited.Nodup →
       m.hasTypeAttr = true →
       memberValue h value m = some memval →
       memval.address = some pa →
       8 ≤ sizeOfTy m.ftype →
       allowedFieldCode m.ftype = true →
       pa ∉ (expandValue h name value (some pa) st).visited ∧
         (name ++ "[" ++ fieldNameStr m ++ "]", some memval) ∈
           (expandValue h name value (some pa) st).worklist) ∧
    (∀ (h : Host) (name : String) (value : Value) (pa : Nat) (elemTy : GdbType)
       (sz : Nat) (st : TravState),
       getBasicType value.vtype = .arr elemTy sz →
       st.visited.Nodup →
       1 ≤ sz / sizeOfTy elemTy →
       (h.elemAt value 0).address = some pa →
       pa ∉ (expandValue h name value (some pa) st).visited ∧
         (name ++ "[" ++ toString (0 : Nat) ++ "]", some (h.elemAt value 0)) ∈
           (expandValue h name value (some pa) st).worklist) := by
  constructor
  · intro h name value pa m fs sz st memval hb hnd hattr hmv haddr hsize hkind
    have hexp : expandValue h name value (some pa) st =
        structStep h name value (some pa) (m :: fs) st := by
      simp only [expandValue, hb]
    have hfirst : structFieldStep h name value (some pa) st m =
        pushItem (name ++ "[" ++ fieldNameStr m ++ "]") memval
          { st with visited := st.visited.erase pa } := by
      simp [structFieldStep, hattr, hmv, haddr, hsize, hkind, parentEq]
    have hrest : expandValue h name value (some pa) st =
        List.foldl (structFieldStep h name value (some pa))
          (pushItem (name ++ "[" ++ fieldNameStr m ++ "]") memval
            { st with visited := st.visited.erase pa }) fs := by
      rw [hexp, structStep, List.foldl_cons, hfirst]
    constructor
    · intro hmem
      rw [hrest] at hmem
      have : pa ∈ (pushItem (name ++ "[" ++ fieldNameStr m ++ "]") memval
          { st with visited := st.visited.erase pa }).visited :=
        foldl_visited_sub _ (fun st m => structFieldStep_visited_sub h name value (some pa) st m)
          fs _ pa hmem
      have : pa ∈ st.visited.erase pa := this
      rw [hnd.mem_erase_iff] at this
      exact this.1 rfl
    · rw [hrest]
      exact foldl_worklist_mono _
        (fun st m => structFieldStep_worklist_mono h name value (some pa) st m) fs _ _
        (List.mem_cons_self _ _)
  · intro h name value pa elemTy sz st hb hnd hcnt h0addr
    obtain ⟨k, hk⟩ : ∃ k, sz / sizeOfTy elemTy = k + 1 :=
      ⟨sz / sizeOfTy elemTy - 1, by omega⟩
    have hexp : expandValue h name value (some pa) st =
        arrayStep h name value (some pa) (k + 1) st := by
      simp only [expandValue, hb, hk]
    have hfirst : arrayElemStep h name value (some pa) st 0 =
        pushItem (name ++ "[" ++ toString (0 : Nat) ++ "]") (h.elemAt value 0)
          { st with visited := st.visited.erase pa } := by
      simp [arrayElemStep, h0addr, parentEq]
    have hrest : expandValue h name value (some pa) st =
        List.foldl (arrayElemStep h name value (some pa))
          (pushItem (name ++ "[" ++ toString (0 : Nat) ++ "]") (h.elemAt value 0)
            { st with visited := st.visited.erase pa })
          ((List.range k).map Nat.succ) := by
      rw [hexp, arrayStep, List.range_succ_eq_map, List.foldl_cons, hfirst]
    constructor
    · intro hmem
      rw [hrest] at hmem
      have : pa ∈ (pushItem (name ++ "[" ++ toString (0 : Nat) ++ "]") (h.elemAt value 0)
          { st with visited := st.visited.erase pa }).visited :=
        foldl_visited_sub _ (fun st i => arrayElemStep_visited_sub h name value (some pa) st i)
          _ _ pa hmem
      have : pa ∈ st.visited.erase pa := this
      rw [hnd.mem_erase_iff] at this
      exact this.1 rfl
    · rw [hrest]
      exact foldl_worklist_mono _
        (fun st i => arrayElemStep_worklist_mono h name value (some pa) st i) _ _ _
        (List.mem_cons_self _ _)

/-- C4 (amended): a value whose basic type is a union is not expanded at
all (line 208 tests `TYPE_CODE_STRUCT` only); for a struct, the member loop
obtains a base-class member by reinterpreting the value as the base type
and any other member by name, and an inaccessible member (no type
attribute, no obtainable value, or no address) is skipped while the
remaining members are still processed. -/
theorem c4_struct_field_iteration :
    (∀ (h : Host) (name : String) (value : Value) (parent? : Option Nat)
       (st : TravState) (fs : List GdbField) (sz : Nat),
       getBasicType value.vtype = .union fs sz →
       expandValue h name value parent? st = st) ∧
    (∀ (h : Host) (name : String) (value : Value) (parent? : Option Nat)
       (st : TravState) (m : GdbField) (fs1 fs2 : List GdbField),
       (m.hasTypeAttr = false ∨ memberValue h value m = none ∨
         (∃ mv, memberValue h value m = some mv ∧ mv.address = none)) →
       structStep h name value parent? (fs1 ++ m :: fs2) st =
         structStep h name value parent? (fs1 ++ fs2) st) ∧
    (∀ (h : Host) (value : Value) (m : GdbField),
       m.isBaseClass = true →
       memberValue h value m = some (h.castV value m.ftype)) ∧
    (∀ (h : Host) (value : Value) (m : GdbField) (nm : String),
       m.isBaseClass = false → m.fname = some nm → nm ≠ "" →
       h.hasattrV value nm = true →
       memberValue h value m = h.fieldByName value nm) := by
  refine ⟨?_, ?_, ?_, ?_⟩
  · intro h name value parent? st fs sz hb
    simp only [expandValue, hb]
  · intro h name value parent? st m fs1 fs2 hskip
    have hid : ∀ st', structFieldStep h name value parent? st' m = st' := by
      intro st'
      rcases hskip with hattr | hnone | ⟨mv, hmv, haddr⟩
      · simp [structFieldStep, hattr]
      · simp [structFieldStep, hnone]
      · simp [structFieldStep, hmv, haddr]
    unfold structStep
    rw [List.foldl_append, List.foldl_append, List.foldl_cons, hid]
  · intro h value m hbase
    simp [memberValue, hbase]
  · intro h value m nm hbase hnm hne hattr
    simp [memberValue, hbase, hnm, hne, hattr]

/-- C5: size-threshold pruning.  A pointer whose (dynamic-type-resolved)
target type has size below 8 bytes never pushes its pointee, whatever the
heap oracle says; and every item a struct expansion adds to the worklist
comes from a member whose type has size at least 8 and whose type code is
one of PTR, REF, ARRAY, STRUCT, UNION, TYPEDEF. -/
theorem c5_size_threshold_pruning :
    (∀ (h : Host) (name : String) (value : Value) (parent? : Option Nat)
       (st : TravState) (t : GdbType) (s : Nat),
       getBasicType value.vtype = .ptr t s →
       (∀ tt, targetOf (resolvePtr h value (.ptr t s)).1 = some tt → sizeOfTy tt < 8) →
       (expandValue h name value parent? st).worklist = st.worklist) ∧
    (∀ (h : Host) (name : String) (value : Value) (parent? : Option Nat)
       (st : TravState) (fs : List GdbField) (sz : Nat) (x : String × Option Value),
       getBasicType value.vtype = .strct fs sz →
       x ∈ (expandValue h name value parent? st).worklist →
       x ∈ st.worklist ∨
         ∃ m ∈ fs, m.hasTypeAttr = true ∧ 8 ≤ sizeOfTy m.ftype ∧
           allowedFieldCode m.ftype = true ∧
           ∃ mv, memberValue h value m = some mv ∧
             x = (name ++ "[" ++ fieldNameStr m ++ "]", some mv)) := by
  constructor
  · intro h name value parent? st t s hb hsmall
    have hexp : expandValue h name value parent? st =
        pointerStep h name value (.ptr t s) st := by
      unfold expandValue
      rw [hb]
    rw [hexp]
    simp only [pointerStep]
    split
    · rfl
    · rename_i blk hblk
      split
      · split
        · rename_i tt htt
          rw [if_neg (by simpa using Nat.not_le.mpr (hsmall tt htt))]
        · rfl
      · rfl
  · intro h name value parent? st fs sz x hb hx
    have hexp : expandValue h name value parent? st =
        structStep h name value parent? fs st := by
      unfold expandValue
      rw [hb]
    rw [hexp] at hx
    rcases structStep_worklist_cases h name value parent? fs st x hx with hx' | ⟨m, hm, hattr, mv, hmv, _, hsz, hcode, hxeq⟩
    · exact Or.inl hx'
    · exact Or.inr ⟨m, hm, hattr, hsz, hcode, mv, hmv, hxeq⟩

/-- C10: pointer-follow gating.  A pointer expansion only ever pushes the
pointee when the heap oracle reports a live block whose base address is not
yet in the visited-block set; when the oracle reports no block, a free
block, or a block already counted, the expansion leaves the state — bytes,
count and worklist — completely unchanged. -/
theorem c10_pointer_follow_gating (h : Host) (name : String) (value : Value)
    (parent? : Option Nat) (st : TravState) (t : GdbType) (s : Nat)
    (hb : getBasicType value.vtype = .ptr t s) :
    ((expandValue h name value parent? st).worklist ≠ st.worklist →
      ∃ blk, h.heapBlock (h.ptrLong (resolvePtr h value (.ptr t s)).2) = some blk ∧
        blk.inuse = true ∧ blk.address ∉ st.blkAddrs) ∧
    (∀ blk, h.heapBlock (h.ptrLong (resolvePtr h value (.ptr t s)).2) = some blk →
      blk.inuse = false ∨ blk.address ∈ st.blkAddrs →
      expandValue h name value parent? st = st) ∧
    (h.heapBlock (h.ptrLong (resolvePtr h value (.ptr t s)).2) = none →
      expandValue h name value parent? st = st) := by
  have hexp : expandValue h name value parent? st =
      pointerStep h name value (.ptr t s) st := by
    unfold expandValue
    rw [hb]
  refine ⟨?_, ?_, ?_⟩
  · intro hne
    rw [hexp] at hne
    simp only [pointerStep] at hne
    split at hne
    · exact absurd rfl hne
    · rename_i blk hblk
      split at hne
      · rename_i hcond
        rw [Bool.and_eq_true] at hcond
        exact ⟨blk, hblk, hcond.1, by simpa using hcond.2⟩
      · exact absurd rfl hne
  · intro blk hblk hstale
    rw [hexp]
    simp only [pointerStep]
    split
    · rfl
    · rename_i blk' hblk'
      obtain rfl : blk' = blk := by
        rw [hblk'] at hblk
        exact Option.some.inj hblk
      rw [if_neg ?_]
      simp only [Bool.not_eq_true]
      rcases hstale with h1 | h1 <;> simp [h1]
  · intro hnone
    rw [hexp]
    simp only [pointerStep]
    split
    · rfl
    · rename_i blk' hblk'
      rw [hnone] at hblk'
      exact absurd hblk' (by simp)

/-! Termination of the worklist loop. -/

theorem weight_basic_le : ∀ t : GdbType, weight (getBasicType t) ≤ weight t
  | .ptr _ _ => Nat.le_refl _
  | .arr _ _ => Nat.le_refl _
  | .strct _ _ => Nat.le_refl _
  | .union _ _ => Nat.le_refl _
  | .prim _ => Nat.le_refl _
  | .ref t _ => by
    have ih := weight_basic_le t
    simp only [getBasicType, weight]
    omega
  | .typedef t _ => by
    have ih := weight_basic_le t
    simp only [getBasicType, weight]
    omega

theorem sumW_mem : ∀ (fs : List GdbField), ∀ m ∈ fs, weight m.ftype ≤ sumW fs := by
  intro fs
  induction fs with
  | nil => intro m hm; simp at hm
  | cons f fs ih =>
    intro m hm
    rcases List.mem_cons.mp hm with rfl | hm'
    · cases m with
      | mk n b hh t => simp only [sumW, GdbField.ftype]; omega
    · cases f with
      | mk n b hh t =>
        have := ih m hm'
        simp only [sumW]
        omega

theorem length_filter_le_of_imp {α : Type} (p q : α → Bool)
    (himp : ∀ x, q x = true → p x = true) :
    ∀ l : List α, (l.filter q).length ≤ (l.filter p).length := by
  intro l
  induction l with
  | nil => simp
  | cons a l ih =>
    by_cases hq : q a = true
    · rw [List.filter_cons_of_pos hq, List.filter_cons_of_pos (himp a hq)]
      simpa using ih
    · rw [List.filter_cons_of_neg (by simpa using hq)]
      by_cases hp : p a = true
      · rw [List.filter_cons_of_pos hp]
        exact ih.trans (Nat.le_succ _)
      · rw [List.filter_cons_of_neg (by simpa using hp)]
        exact ih

theorem filter_fresh_cons_lt (A : List Nat) (blk : HeapBlock) (l : List HeapBlock)
    (hmem : blk ∈ l) (hfresh : blk.address ∉ A) :
    (l.filter (fun b => !(decide (b.address ∈ blk.address :: A)))).length <
      (l.filter (fun b => !(decide (b.address ∈ A)))).length := by
  have himp : ∀ b : HeapBlock,
      (!(decide (b.address ∈ blk.address :: A))) = true →
      (!(decide (b.address ∈ A))) = true := by
    intro b hb
    simp only [Bool.not_eq_true', decide_eq_false_iff_not] at hb
    simp only [Bool.not_eq_true', decide_eq_false_iff_not]
    exact fun hmemA => hb (List.mem_cons_of_mem _ hmemA)
  obtain ⟨l1, l2, rfl⟩ := List.append_of_mem hmem
  rw [List.filter_append, List.filter_append, List.length_append, List.length_append]
  have h1 := length_filter_le_of_imp _ _ himp l1
  have h2 := length_filter_le_of_imp _ _ himp l2
  have hq' : (!(decide (blk.address ∈ blk.address :: A))) = false := by simp
  have hp' : (!(decide (blk.address ∈ A))) = true := by simpa using hfresh
  simp only [List.filter_cons, hq', hp']
  simp only [Bool.false_eq_true, if_false, if_true, List.length_cons]
  omega

/-- Adding a fresh base address of an actual allocator block strictly
shrinks the number of not-yet-visited blocks. -/
theorem blocksLeft_cons_lt (h : Host) (A : List Nat) (blk : HeapBlock)
    (hmem : blk ∈ h.heap) (hfresh : blk.address ∉ A) :
    blocksLeft h (blk.address :: A) < blocksLeft h A :=
  filter_fresh_cons_lt A blk h.heap hmem hfresh

theorem wlWeight_cons (x : String × Option Value) (l : List (String × Option Value)) :
    wlWeight (x :: l) = itemWeight x + wlWeight l := by
  simp [wlWeight]

theorem itemWeight_pos (x : String × Option Value) : 1 ≤ itemWeight x := by
  rcases x with ⟨nm, _ | v⟩ <;> simp [itemWeight]

theorem arrayElemStep_worklist_eq (h : Host) (name : String) (value : Value)
    (parent? : Option Nat) (st : TravState) (i : Nat) :
    (arrayElemStep h name value parent? st i).worklist =
      (name ++ "[" ++ toString i ++ "]", some (h.elemAt value i)) :: st.worklist := by
  simp only [arrayElemStep, pushItem]
  split <;> rfl

theorem arrayFold_wlWeight (h : Host) (wf : HostWF h) (name : String) (value : Value)
    (parent? : Option Nat) (elemTy : GdbType) (s : Nat)
    (hb : getBasicType value.vtype = .arr elemTy s) :
    ∀ (l : List Nat) (st : TravState),
      wlWeight (l.foldl (arrayElemStep h name value parent?) st).worklist =
        wlWeight st.worklist + l.length * (1 + weight elemTy) := by
  intro l
  induction l with
  | nil => intro st; simp
  | cons i l ih =>
    intro st
    rw [List.foldl_cons, ih]
    have hstep : wlWeight (arrayElemStep h name value parent? st i).worklist =
        wlWeight st.worklist + (1 + weight elemTy) := by
      rw [arrayElemStep_worklist_eq, wlWeight_cons]
      simp only [itemWeight, wf.elem_type value i elemTy s hb]
      omega
    rw [hstep, List.length_cons]
    ring

theorem structFieldStep_wlWeight_le (h : Host) (wf : HostWF h) (name : String)
    (value : Value) (parent? : Option Nat) (fs : List GdbField) (s : Nat)
    (hb : getBasicType value.vtype = .strct fs s) (m : GdbField) (hm : m ∈ fs)
    (st : TravState) :
    wlWeight (structFieldStep h name value parent? st m).worklist ≤
      wlWeight st.worklist + (1 + sumW fs) := by
  simp only [structFieldStep, pushItem]
  split
  · omega
  · split
    · omega
    · rename_i memval hmv
      split
      · omega
      · split
        · have hwt : weight memval.vtype ≤ sumW fs := by
            unfold memberValue at hmv
            split at hmv
            · have he : memval = h.castV value m.ftype := (Option.some.inj hmv).symm
              rw [he, wf.cast_type]
              exact sumW_mem fs m hm
            · split at hmv
              · rename_i nm hnm
                split at hmv
                · obtain ⟨m', hm', he⟩ := wf.field_type value nm memval fs s hb hmv
                  rw [he]
                  exact sumW_mem fs m' hm'
                · simp at hmv
              · simp at hmv
          split <;>
          · rw [wlWeight_cons]
            simp only [itemWeight]
            omega
        · omega

theorem structFold_wlWeight_le (h : Host) (wf : HostWF h) (name : String)
    (value : Value) (parent? : Option Nat) (fs : List GdbField) (s : Nat)
    (hb : getBasicType value.vtype = .strct fs s) :
    ∀ (fs' : List GdbField) (st : TravState), (∀ m ∈ fs', m ∈ fs) →
      wlWeight (fs'.foldl (structFieldStep h name value parent?) st).worklist ≤
        wlWeight st.worklist + fs'.length * (1 + sumW fs) := by
  intro fs'
  induction fs' with
  | nil => intro st _; simp
  | cons m fs' ih =>
    intro st hsub
    rw [List.foldl_cons]
    have h1 := ih (structFieldStep h name value parent? st m)
      (fun m' hm' => hsub m' (List.mem_cons_of_mem _ hm'))
    have h2 := structFieldStep_wlWeight_le h wf name value parent? fs s hb m
      (hsub m (List.mem_cons_self _ _)) st
    rw [List.length_cons, Nat.succ_mul]
    omega

/-- One expansion either strictly shrinks the number of unvisited
allocator blocks, or leaves it unchanged while growing the worklist by
strictly less than the weight of the expanded value. -/
theorem expandValue_measure (h : Host) (wf : HostWF h) (name : String) (value : Value)
    (parent? : Option Nat) (st : TravState) :
    blocksLeft h (expandValue h name value parent? st).blkAddrs < blocksLeft h st.blkAddrs ∨
      (blocksLeft h (expandValue h name value parent? st).blkAddrs = blocksLeft h st.blkAddrs ∧
        wlWeight (expandValue h name value parent? st).worklist <
          1 + weight value.vtype + wlWeight st.worklist) := by
  unfold expandValue
  split
  · -- pointer branch
    rename_i t s hb
    simp only [pointerStep, pushItem]
    split
    · right
      exact ⟨rfl, by omega⟩
    · rename_i blk hblk
      split
      · rename_i hcond
        left
        have hfresh : blk.address ∉ st.blkAddrs := by
          have := (Bool.and_eq_true _ _).mp hcond |>.2
          simpa using this
        have hlt := blocksLeft_cons_lt h st.blkAddrs blk (wf.heapBlock_mem _ _ hblk) hfresh
        split
        · split
          · exact hlt
          · exact hlt
        · exact hlt
      · right
        exact ⟨rfl, by omega⟩
  · -- array branch
    rename_i t s hb
    have hacct := acct_parts (arrayStep_acct h name value parent? (s / sizeOfTy t) st)
    right
    refine ⟨by rw [hacct.1], ?_⟩
    have hwt := arrayFold_wlWeight h wf name value parent? t s hb
      (List.range (s / sizeOfTy t)) st
    have hge : weight (GdbType.arr t s) ≤ weight value.vtype := hb ▸ weight_basic_le value.vtype
    rw [weight] at hge
    have hrw : (arrayStep h name value parent? (s / sizeOfTy t) st).worklist =
        ((List.range (s / sizeOfTy t)).foldl (arrayElemStep h name value parent?) st).worklist := rfl
    rw [hrw, hwt, List.length_range]
    generalize (s / sizeOfTy t) * (1 + weight t) = X at hge ⊢
    omega
  · -- struct branch
    rename_i fs s hb
    have hacct := acct_parts (structStep_acct h name value parent? fs st)
    right
    refine ⟨by rw [hacct.1], ?_⟩
    have hwt := structFold_wlWeight_le h wf name value parent? fs s hb fs st (fun m hm => hm)
    have hge : weight (GdbType.strct fs s) ≤ weight value.vtype := hb ▸ weight_basic_le value.vtype
    rw [weight] at hge
    have hrw : (structStep h name value parent? fs st).worklist =
        (fs.foldl (structFieldStep h name value parent?) st).worklist := rfl
    rw [hrw] at *
    generalize fs.length * (1 + sumW fs) = X at hge hwt ⊢
    omega
  · right
    exact ⟨rfl, by omega⟩

/-- The lexicographic loop measure strictly decreases at every pop. -/
theorem step_measure (h : Host) (wf : HostWF h) (nm : String) (v : Option Value)
    (rest : List (String × Option Value)) (st : TravState)
    (hwl : st.worklist = (nm, v) :: rest) :
    blocksLeft h (processItem h nm v { st with worklist := rest }).blkAddrs <
        blocksLeft h st.blkAddrs ∨
      (blocksLeft h (processItem h nm v { st with worklist := rest }).blkAddrs =
          blocksLeft h st.blkAddrs ∧
        wlWeight (processItem h nm v { st with worklist := rest }).worklist <
          wlWeight st.worklist) := by
  have hW : wlWeight st.worklist = itemWeight (nm, v) + wlWeight rest := by
    rw [hwl, wlWeight_cons]
  unfold processItem
  split
  · right
    refine ⟨rfl, ?_⟩
    rw [hW]
    simp only [itemWeight]
    omega
  · rename_i value
    split
    · right
      refine ⟨rfl, ?_⟩
      rw [hW]
      simp only [itemWeight]
      omega
    · split
      · rename_i a ha
        split
        · split
          · right
            refine ⟨rfl, ?_⟩
            rw [hW]
            simp only [itemWeight]
            omega
          · have hm := expandValue_measure h wf nm value (some a)
              { worklist := rest, visited := a :: st.visited, blkAddrs := st.blkAddrs,
                size := st.size, count := st.count, counted := st.counted,
                expanded := a :: st.expanded }
            rcases hm with hl | ⟨he, hlt⟩
            · exact Or.inl hl
            · right
              refine ⟨he, ?_⟩
              rw [hW]
              simpa [itemWeight] using hlt
        · have hm := expandValue_measure h wf nm value none
            { worklist := rest, visited := st.visited, blkAddrs := st.blkAddrs,
              size := st.size, count := st.count, counted := st.counted,
              expanded := st.expanded }
          rcases hm with hl | ⟨he, hlt⟩
          · exact Or.inl hl
          · right
            refine ⟨he, ?_⟩
            rw [hW]
            simpa [itemWeight] using hlt
      · have hm := expandValue_measure h wf nm value none
          { worklist := rest, visited := st.visited, blkAddrs := st.blkAddrs,
            size := st.size, count := st.count, counted := st.counted,
            expanded := st.expanded }
        rcases hm with hl | ⟨he, hlt⟩
        · exact Or.inl hl
        · right
          refine ⟨he, ?_⟩
          rw [hW]
          simpa [itemWeight] using hlt

theorem loopF_term_aux (h : Host) (wf : HostWF h) (k1 : Nat)
    (ih1 : ∀ m, m < k1 → ∀ st : TravState, blocksLeft h st.blkAddrs = m →
      ∃ n, (loopF h n st).isSome) :
    ∀ (k2 : Nat) (st : TravState), blocksLeft h st.blkAddrs = k1 →
      wlWeight st.worklist = k2 → ∃ n, (loopF h n st).isSome := by
  intro k2
  induction k2 using Nat.strong_induction_on with
  | _ k2 ih2 =>
    intro st h1 h2
    cases hwl : st.worklist with
    | nil => exact ⟨1, by simp [loopF, hwl]⟩
    | cons head rest =>
      obtain ⟨nm, v⟩ := head
      rcases step_measure h wf nm v rest st hwl with hl | ⟨he, hlt⟩
      · obtain ⟨n, hn⟩ := ih1 _ (h1 ▸ hl) _ rfl
        refine ⟨n + 1, ?_⟩
        rw [loopF, hwl]
        exact hn
      · obtain ⟨n, hn⟩ := ih2 _ (h2 ▸ hlt) _ (he.trans h1) rfl
        refine ⟨n + 1, ?_⟩
        rw [loopF, hwl]
        exact hn

/-- For any host satisfying the gdb consistency conditions, the worklist
loop halts from every state: the pair (unvisited blocks, worklist weight)
decreases lexicographically at every iteration. -/
theorem loopF_terminates (h : Host) (wf : HostWF h) (st : TravState) :
    ∃ n, (loopF h n st).isSome := by
  suffices haux : ∀ (k1 : Nat) (st : TravState), blocksLeft h st.blkAddrs = k1 →
      ∃ n, (loopF h n st).isSome from haux _ st rfl
  intro k1
  induction k1 using Nat.strong_induction_on with
  | _ k1 ih1 =>
    intro st h1
    exact loopF_term_aux h wf k1 (fun m hm st' h' => ih1 m hm st' h') _ st h1 rfl

/-- C2: cycle safety.  First, a popped work item whose value has a truthy
address already in the visited-address set is skipped outright — the state
is returned unchanged, so no address in the set is ever expanded again
through it.  Second, for every host satisfying the gdb consistency
conditions, `heap_usage_value` terminates on every input (in the fuel
model: some fuel makes the loop finish), in particular on self-referential
value graphs, where the pointer back to an ancestor either points at an
already-counted block (not followed) or at a non-heap address. -/
theorem c2_cycle_safety :
    (∀ (h : Host) (nm : String) (v : Value) (a : Nat) (st : TravState),
       v.address = some a → a ≠ 0 → a ∈ st.visited →
       processItem h nm (some v) st = st) ∧
    (∀ h : Host, HostWF h → ∀ (name : String) (value : Option Value)
       (blkAddrs : List Nat),
       ∃ n, (heap_usage_value h n name value blkAddrs).isSome) := by
  constructor
  · intro h nm v a st haddr hne hmem
    simp [processItem, haddr, hne, hmem]
  · intro h wf name value blkAddrs
    exact loopF_terminates h wf _

/-- The concrete host family satisfies the gdb consistency conditions. -/
theorem stdHost_wf (heap : List HeapBlock) (pread : Nat → Nat)
    (faddr : Value → String → Option Nat) : HostWF (stdHost heap pread faddr) := by
  constructor
  · intro a blk hblk
    exact List.mem_of_find?_eq_some hblk
  · intro v t
    rfl
  · intro v i t s hb
    simp [stdHost, stdElemAt, hb]
  · intro v nm val fs s hb hf
    have hf' : stdFieldByName faddr v nm = some val := hf
    simp only [stdFieldByName, hb] at hf'
    cases hfind : fs.find? (fun m => m.fname == some nm) with
    | none => rw [hfind] at hf'; simp at hf'
    | some m =>
      rw [hfind] at hf'
      refine ⟨m, List.mem_of_find?_eq_some hfind, ?_⟩
      rw [← Option.some.inj hf']

/-! Invariants of the whole-process scan. -/

theorem foldlM_option_inv {α σ : Type} (P : σ → Prop) (f : σ → α → Option σ)
    (hf : ∀ s a s', f s a = some s' → P s → P s') :
    ∀ (l : List α) (s s' : σ), l.foldlM f s = some s' → P s → P s' := by
  intro l
  induction l with
  | nil =>
    intro s s' hfold hp
    simp only [List.foldlM_nil] at hfold
    exact (Option.some.inj hfold) ▸ hp
  | cons a l ih =>
    intro s s' hfold hp
    simp only [List.foldlM_cons] at hfold
    cases hfa : f s a with
    | none =>
      rw [hfa] at hfold
      simp at hfold
    | some s1 =>
      rw [hfa] at hfold
      exact ih s1 s' hfold (hf s a s1 hfa hp)

theorem runRoot_inv (h : ScanHost) (fuel : Nat) (rid nm : String) (v : Value)
    (st st' : ScanState) (hrr : runRoot h fuel rid nm v st = some st')
    (hp : ScanInv st) : ScanInv st' := by
  unfold runRoot at hrr
  split at hrr
  · simp at hrr
  · rename_i r hr
    obtain ⟨new, e1, e2, e3, e4, e5, e6⟩ := loopF_counted h.toHost fuel _ r hr
    simp only [List.append_nil] at e1
    subst e1
    obtain ⟨hp1, hp2⟩ := hp
    have hfields : st'.blkAddrs = r.blkAddrs ∧
        st'.countedLog = r.counted ++ st.countedLog := by
      split at hrr <;>
      · have hx := Option.some.inj hrr
        subst hx
        exact ⟨rfl, rfl⟩
    obtain ⟨hb1, hb2⟩ := hfields
    constructor
    · rw [hb1, hb2, e2, hp1, List.map_append]
    · rw [hb2, List.map_append]
      refine List.Nodup.append e5 hp2 ?_
      intro a ha hain
      have h6 := e6 a ha
      rw [hp1] at h6
      exact h6 hain

theorem runRoot_selected (h : ScanHost) (fuel : Nat) (rid nm : String) (v : Value)
    (st st' : ScanState) (hrr : runRoot h fuel rid nm v st = some st') :
    st'.selected = st.selected := by
  unfold runRoot at hrr
  split at hrr
  · simp at hrr
  · split at hrr <;>
    · have hx := Option.some.inj hrr
      subst hx
      rfl

theorem processSym_inv (h : ScanHost) (fuel : Nat) (tn fi : Nat) (sym : ScanSym)
    (acc acc' : List String × ScanState)
    (hps : processSym h fuel tn fi sym acc = some acc') (hp : ScanInv acc.2) :
    ScanInv acc'.2 := by
  simp only [processSym] at hps
  repeat' split at hps
  all_goals
    first
      | (obtain rfl := Option.some.inj hps; exact hp)
      | (rename_i st2 hrr
         obtain rfl := Option.some.inj hps
         exact runRoot_inv _ _ _ _ _ _ _ hrr ⟨hp.1, hp.2⟩)
      | simp at hps

theorem processFrameBlocks_inv (h : ScanHost) (fuel : Nat) (tn fi : Nat)
    (blks : List ScanBlock) (st st' : ScanState)
    (hpf : processFrameBlocks h fuel tn fi blks st = some st') (hp : ScanInv st) :
    ScanInv st' := by
  unfold processFrameBlocks at hpf
  split at hpf
  · simp at hpf
  · rename_i r hfold
    cases hpf
    refine foldlM_option_inv (fun acc : List String × ScanState => ScanInv acc.2)
      _ ?_ _ _ r hfold hp
    intro s b s' hstep hpp
    exact foldlM_option_inv (fun acc : List String × ScanState => ScanInv acc.2)
      _ (fun a2 sy a2' hs hp2 => processSym_inv h fuel tn fi sy a2 a2' hs hp2)
      b.syms s s' hstep hpp

theorem processFrame_inv (h : ScanHost) (fuel : Nat) (tn fi : Nat) (fr : ScanFrame)
    (st st' : ScanState) (hpf : processFrame h fuel tn fi fr st = some st')
    (hp : ScanInv st) : ScanInv st' := by
  unfold processFrame at hpf
  split at hpf
  · cases hpf; exact hp
  · split at hpf
    · cases hpf; exact hp
    · exact processFrameBlocks_inv h fuel tn fi _ st st' hpf hp

theorem processThread_inv (h : ScanHost) (fuel : Nat) (t : ScanThread)
    (st : ScanState) (res : Except ScanState ScanState)
    (hpt : processThread h fuel t st = some res) (hp : ScanInv st) :
    ScanInv (exceptState res) := by
  simp only [processThread] at hpt
  split at hpt
  · cases hpt; exact hp
  · split at hpt
    · cases hpt; exact ⟨hp.1, hp.2⟩
    · split at hpt
      · simp at hpt
      · rename_i st2 hfold
        cases hpt
        exact foldlM_option_inv ScanInv _
          (fun s p s' hf hps => processFrame_inv h fuel t.num p.1 p.2 s s' hf hps)
          _ _ st2 hfold ⟨hp.1, hp.2⟩

theorem goThreads_inv (h : ScanHost) (fuel : Nat) :
    ∀ (ts : List ScanThread) (st : ScanState) (res : Except ScanState ScanState),
      goThreads h fuel ts st = some res → ScanInv st → ScanInv (exceptState res) := by
  intro ts
  induction ts with
  | nil =>
    intro st res hg hp
    cases hg
    exact hp
  | cons t ts ih =>
    intro st res hg hp
    unfold goThreads at hg
    split at hg
    · simp at hg
    · rename_i st1 heq
      cases hg
      exact processThread_inv h fuel t st _ heq hp
    · rename_i st1 heq
      exact ih st1 res hg (processThread_inv h fuel t st _ heq hp)

theorem goGvs_inv (h : ScanHost) (fuel : Nat) (gvs : List GlobalVar)
    (st st' : ScanState) (hg : goGvs h fuel gvs st = some st') (hp : ScanInv st) :
    ScanInv st' := by
  unfold goGvs at hg
  refine foldlM_option_inv ScanInv _ ?_ gvs st st' hg hp
  intro s gv s' hstep hps
  split at hstep
  · cases hstep; exact hps
  · exact runRoot_inv h fuel _ _ _ s s' hstep hps

theorem goGvs_selected (h : ScanHost) (fuel : Nat) (gvs : List GlobalVar)
    (st st' : ScanState) (hg : goGvs h fuel gvs st = some st') :
    st'.selected = st.selected := by
  unfold goGvs at hg
  refine foldlM_option_inv (fun s => s.selected = st.selected) _ ?_ gvs st st' hg rfl
  intro s gv s' hstep hps
  split at hstep
  · cases hstep; exact hps
  · exact (runRoot_selected h fuel _ _ _ s s' hstep).trans hps

/-- C6 (amended): the visited-heap-block set is shared across the whole
scan — on every completed `calcAllVars` (normal or aborted) it equals the
base addresses of all blocks counted by all the roots together, and no base
address is counted twice across the scan, so a block reachable from two
roots enters the totals once.  (The visited-value-address set, by contrast,
is created afresh inside each `heap_usage_value` call — see the
counterexample.) -/
theorem c6_block_set_shared (h : ScanHost) (fuel : Nat) (out : ScanOutcome)
    (hr : calcAllVars h fuel = some out) :
    out.stateOf.blkAddrs = out.stateOf.countedLog.map HeapBlock.address ∧
      (out.stateOf.countedLog.map HeapBlock.address).Nodup := by
  have hinv0 : ScanInv
      { selected := h.selectedThread, uniqueRoots := [], blkAddrs := [], results := [],
        totalBytes := 0, totalCount := 0, expandedLog := [], countedLog := [] } := by
    constructor <;> simp
  simp only [calcAllVars] at hr
  split at hr
  · simp at hr
  · rename_i st1 hgt
    cases hr
    exact goThreads_inv h fuel h.threads _ _ hgt hinv0
  · rename_i st1 hgt
    split at hr
    · cases hr
      exact goThreads_inv h fuel h.threads _ _ hgt hinv0
    · rename_i orig hsel
      split at hr
      · simp at hr
      · rename_i st3 hgv
        cases hr
        have h1 : ScanInv st1 := goThreads_inv h fuel h.threads _ _ hgt hinv0
        exact goGvs_inv h fuel _ _ st3 hgv ⟨h1.1, h1.2⟩

/-- C6 counterexample: in a concrete scan with two roots whose traversals
reach the same member address 300, the scan-wide expansion log records 300
twice — each root's `heap_usage_value` call starts with a fresh
visited-value-address set, so that set is *not* shared across roots as the
claim states (a shared set would have skipped the second expansion). -/
theorem c6_value_addr_set_not_shared_cex :
    (calcAllVars scanC6 30).map
        (fun o => (o.isAborted, o.stateOf.expandedLog.count 300)) =
      some (false, 2) := by
  rfl

theorem c6_witness :
    calcAllVars scanC6w 20 = some outC6w ∧
    outC6w.stateOf.countedLog.map HeapBlock.address = [1000] ∧
    (outC6w.stateOf.blkAddrs = outC6w.stateOf.countedLog.map HeapBlock.address ∧
      (outC6w.stateOf.countedLog.map HeapBlock.address).Nodup) := by
  refine ⟨rfl, rfl, ?_⟩
  exact c6_block_set_shared scanC6w 20 outC6w rfl

/-- C7: the globals dedup loop of lines 422-429 pops the list it is
iterating, so the element that shifts into the popped slot is never
dedup-checked.  With stack roots at addresses 50 and 60 already counted,
the global `gA` at 50 is popped but `gB` at 60 — equally already counted —
survives, is processed in the globals pass, and contributes 16 bytes and
one block to the results and totals, where the claim requires zero. -/
theorem c7_global_dedup_bug :
    dedupGvs [60, 50] [gvA7, gvB7] = ([gvB7], [60, 50]) ∧
    (calcAllVars scanC7 30).map
        (fun o => (o.isAborted, o.stateOf.results, o.stateOf.totalBytes,
          o.stateOf.totalCount)) =
      some (false, [("f.c gB", 16, 1)], 16, 1) := by
  exact ⟨rfl, rfl⟩

/-- C9 (amended): on every normally completed scan — including scans in
which per-frame exceptions were caught — the thread selected before the
scan is selected again afterwards (line 417); but when an exception escapes
the per-thread processing (a failing `thread.switch()` or
`gdb.newest_frame()`), the scan aborts without restoring, since there is no
`try`/`finally` around the loop — see the counterexample. -/
theorem c9_restore_on_completion (h : ScanHost) (fuel : Nat) (st : ScanState)
    (hr : calcAllVars h fuel = some (.ok st)) :
    ∃ orig, h.selectedThread = some orig ∧ st.selected = some orig := by
  simp only [calcAllVars] at hr
  split at hr
  · simp at hr
  · simp at hr
  · rename_i st1 hgt
    split at hr
    · simp at hr
    · rename_i orig hsel
      split at hr
      · simp at hr
      · rename_i st3 hgv
        have hst : st3 = st := by
          have h1 := Option.some.inj hr
          injection h1
        subst hst
        refine ⟨orig, hsel, ?_⟩
        exact goGvs_selected h fuel _ _ st3 hgv

/-- C9 counterexample: with thread 1 selected at entry, switching to thread
2 succeeds but `gdb.newest_frame()` raises; the scan aborts with thread 2
still selected — the original selection is not restored on this error
path. -/
theorem c9_escaped_exception_no_restore_cex :
    (calcAllVars scanC9bad 2).map (fun o => (o.isAborted, o.stateOf.selected)) =
      some (true, some 2) ∧
    scanC9bad.selectedThread = some 1 := by
  exact ⟨rfl, rfl⟩

theorem c9_witness :
    calcAllVars scanC9ok 2 = some (.ok stC9) ∧
    (∃ orig, scanC9ok.selectedThread = some orig ∧ stC9.selected = some orig) := by
  refine ⟨rfl, ?_⟩
  exact c9_restore_on_completion scanC9ok 2 stC9 rfl

/-- C8 (amended): when an expression's resolution failure manifests as a
falsy `parse_and_eval` result (with the global-symbol fallback also
failing), the failure is reported and `calc_input_vars` continues with the
remaining expressions unchanged; but a failure raised as an exception
escapes the loop to `invoke`, abandoning the inputs after it — see the
counterexample. -/
theorem c8_falsy_resolution_continues (h : CmdHost) (fuel : Nat) (expr : String)
    (rest : List String) (st : CmdState) (v0 : Value)
    (hpe : h.parseAndEval expr = .ok v0) (hfalsy : h.truthy v0 = false)
    (hlookup : ∀ v1, h.lookupGS expr = some (some v1) → h.truthy v1 = false) :
    calcInputVarsGo h fuel (expr :: rest) st =
      calcInputVarsGo h fuel rest { st with reported := st.reported ++ [expr] } := by
  simp only [calcInputVarsGo, hpe, hfalsy]
  cases hl : h.lookupGS expr with
  | none => simp
  | some ov =>
    cases ov with
    | none => simp
    | some v1 => simp [hlookup v1 hl]

/-- C8 counterexample: `parse_and_eval` raising on the first expression
(the way gdb reports an unresolvable expression) aborts the loop, so the
second, perfectly resolvable expression is never evaluated; run on its own
it would have produced a result row. -/
theorem c8_raised_resolution_aborts_cex :
    calcInputVars cmdC8 10 "bad good" =
      some { entries := [], reported := [],
             aborted := some "No symbol bad in current context." } ∧
    calcInputVars cmdC8 10 "good" =
      some { entries := [("good", 0, 0)], reported := [], aborted := none } := by
  exact ⟨rfl, rfl⟩

theorem c8_witness :
    calcInputVarsGo cmdC8w 5 ["bad", "good"] emptyCmd =
      calcInputVarsGo cmdC8w 5 ["good"]
        { emptyCmd with reported := emptyCmd.reported ++ ["bad"] } := by
  refine c8_falsy_resolution_continues cmdC8w 5 "bad" ["good"] emptyCmd
    ⟨.prim 8, some 0, false⟩ rfl rfl ?_
  intro v1 hv1
  exact Option.noConfusion hv1

theorem c2_witness :
    processItem hostC2 "x" (some vC2) stC2 = stC2 ∧
    (∃ n, (heap_usage_value hostC2 n "s" (some vC2) []).isSome) := by
  constructor
  · exact c2_cycle_safety.1 hostC2 "x" vC2 100 stC2 rfl (by decide)
      (by simp [stC2, emptyTrav])
  · exact c2_cycle_safety.2 hostC2 (stdHost_wf _ _ _) "s" (some vC2) []

theorem c1_witness :
    heap_usage_value hostC1 10 "t" (some vC1) [] = some rC1 ∧
    rC1.counted.map HeapBlock.address = [1000] ∧ rC1.size = 16 ∧ rC1.count = 1 ∧
    ((rC1.counted.map HeapBlock.address).Nodup ∧
      ∀ a ∈ rC1.counted.map HeapBlock.address, a ∉ ([] : List Nat)) := by
  refine ⟨rfl, rfl, rfl, rfl, ?_⟩
  have hc := c1_blocks_counted_once hostC1 10 "t" (some vC1) [] rC1 rfl
  exact ⟨hc.2.2.2.1, hc.2.2.2.2⟩

theorem c3_witness :
    (100 ∉ (expandValue hostC3 "s" vC3s (some 100) stC3s).visited ∧
      ("s" ++ "[" ++ fieldNameStr mC3 ++ "]", some mvC3) ∈
        (expandValue hostC3 "s" vC3s (some 100) stC3s).worklist) ∧
    (200 ∉ (expandValue hostC3 "arr" vC3a (some 200) stC3a).visited ∧
      ("arr" ++ "[" ++ toString (0 : Nat) ++ "]", some (hostC3.elemAt vC3a 0)) ∈
        (expandValue hostC3 "arr" vC3a (some 200) stC3a).worklist) := by
  constructor
  · exact c3_first_member_alias.1 hostC3 "s" vC3s 100 mC3 [] 8 stC3s mvC3 rfl
      (by simp [stC3s, emptyTrav]) rfl rfl rfl (by decide) rfl
  · exact c3_first_member_alias.2 hostC3 "arr" vC3a 200 tyPtr8 16 stC3a rfl
      (by simp [stC3a, emptyTrav]) (by decide) rfl

/-- C4 counterexample: a union whose only member is an accessible 8-byte
pointer to a live 16-byte block is not expanded at all — the traversal
returns zero bytes and an empty worklist — while the identical struct
yields 16 bytes, because line 208 tests `TYPE_CODE_STRUCT` only. -/
theorem c4_union_not_expanded_cex :
    (heap_usage_value hostC4 10 "u" (some vC4u) []).map
        (fun r => (r.size, r.count, r.worklist)) = some (0, 0, []) ∧
    (heap_usage_value hostC4 10 "s" (some vC4s) []).map
        (fun r => (r.size, r.count)) = some (16, 1) := by
  exact ⟨rfl, rfl⟩

theorem c4_witness :
    expandValue hostC4 "u" vC4u (some 100) emptyTrav = emptyTrav ∧
    structStep hostC4 "s" vC4s none ([mC4] ++ mC4bad :: []) emptyTrav =
      structStep hostC4 "s" vC4s none ([mC4] ++ []) emptyTrav ∧
    memberValue hostC4 vC4s mC4base = some (hostC4.castV vC4s (.prim 16)) ∧
    memberValue hostC4 vC4s mC4 = hostC4.fieldByName vC4s "p" := by
  refine ⟨?_, ?_, ?_, ?_⟩
  · exact c4_struct_field_iteration.1 hostC4 "u" vC4u (some 100) emptyTrav [mC4] 8 rfl
  · exact c4_struct_field_iteration.2.1 hostC4 "s" vC4s none emptyTrav mC4bad [mC4] []
      (Or.inl rfl)
  · exact c4_struct_field_iteration.2.2.1 hostC4 vC4s mC4base rfl
  · exact c4_struct_field_iteration.2.2.2 hostC4 vC4s mC4 "p" rfl rfl (by decide) rfl

theorem c5_witness :
    (expandValue hostC5 "p" vC5 none emptyTrav).worklist = emptyTrav.worklist ∧
    (("s" ++ "[" ++ fieldNameStr mC4 ++ "]",
        some (⟨tyPtr16, some 100, false⟩ : Value)) ∈ emptyTrav.worklist ∨
      ∃ m ∈ [mC4], m.hasTypeAttr = true ∧ 8 ≤ sizeOfTy m.ftype ∧
        allowedFieldCode m.ftype = true ∧
        ∃ mv, memberValue hostC4 vC4s m = some mv ∧
          ("s" ++ "[" ++ fieldNameStr mC4 ++ "]",
            some (⟨tyPtr16, some 100, false⟩ : Value)) =
            ("s" ++ "[" ++ fieldNameStr m ++ "]", some mv)) := by
  constructor
  · refine c5_size_threshold_pruning.1 hostC5 "p" vC5 none emptyTrav (.prim 4) 8 rfl ?_
    intro tt htt
    have h := Option.some.inj htt
    rw [← h]
    decide
  · exact c5_size_threshold_pruning.2 hostC4 "s" vC4s none emptyTrav [mC4] 8
      ("s" ++ "[" ++ fieldNameStr mC4 ++ "]", some (⟨tyPtr16, some 100, false⟩ : Value))
      rfl (List.Mem.head _)

theorem c10_witness :
    expandValue hostC10 "p" vC10 none emptyTrav = emptyTrav ∧
    ((expandValue hostC10 "p" vC10 none emptyTrav).worklist ≠ emptyTrav.worklist →
      ∃ blk, hostC10.heapBlock
          (hostC10.ptrLong (resolvePtr hostC10 vC10 (.ptr (.prim 16) 8)).2) = some blk ∧
        blk.inuse = true ∧ blk.address ∉ emptyTrav.blkAddrs) := by
  have hc := c10_pointer_follow_gating hostC10 "p" vC10 none emptyTrav (.prim 16) 8 rfl
  exact ⟨hc.2.2 rfl, hc.1⟩

end CoreAnalyzer
